import Mathlib

/-!
Shallow embedding (exact-real semantics over ℚ) of the kessler simulator core:
the physics integrator (src/systems/physics.rs), the octree spatial index and
collision detector and debris generator (src/systems/collision.rs), and the
Debris lineage component (src/components/objects.rs).  Float arithmetic is
idealized as exact rational arithmetic; comparisons of Euclidean lengths
`|v| <= r` are embedded as `0 <= r ∧ |v|^2 <= r^2`, which is equivalent over
the reals since `|v| >= 0`.  Entity ids are natural numbers (live Bevy
entities have pairwise distinct indices).
-/

namespace Kessler

/-- 3-vector over ℚ, embedding bevy's Vec3 (f32) with exact arithmetic. -/
structure Vec3 where
  x : ℚ
  y : ℚ
  z : ℚ
deriving DecidableEq, Repr

instance : Add Vec3 := ⟨fun a b => ⟨a.x + b.x, a.y + b.y, a.z + b.z⟩⟩
instance : Sub Vec3 := ⟨fun a b => ⟨a.x - b.x, a.y - b.y, a.z - b.z⟩⟩
instance : SMul ℚ Vec3 := ⟨fun q v => ⟨q * v.x, q * v.y, q * v.z⟩⟩
instance : Zero Vec3 := ⟨⟨0, 0, 0⟩⟩

/-- Squared Euclidean length, `v.length_squared()`. -/
def Vec3.lengthSq (v : Vec3) : ℚ := v.x * v.x + v.y * v.y + v.z * v.z

/-- Embedding of the float comparison `v.length() <= r`: equivalent to
`0 <= r ∧ |v|^2 <= r^2` because a Euclidean length is nonnegative. -/
def Vec3.lengthLe (v : Vec3) (r : ℚ) : Bool :=
  decide (0 ≤ r) && decide (v.lengthSq ≤ r * r)

/-- Rust `f=clamp(min, max)`: if below min take min, if above max take max. -/
def clampQ (v lo hi : ℚ) : ℚ := if v < lo then lo else if v > hi then hi else v

/-- Rust `u32=clamp(min, max)`. -/
def clampNat (v lo hi : ℕ) : ℕ := if v < lo then lo else if v > hi then hi else v

/-- One simulated object as seen by the collision/debris systems: entity id,
`OrbitalState` (position km, velocity km/s, mass kg) and `PhysicsObject`
collision radius (km).  The component structs live in `src/components`
(not included); modelled from the spec: OrbitalState is a position/velocity/
mass record, PhysicsObject carries `collision_radius`. -/
structure SimObject where
  id : ℕ
  position : Vec3
  velocity : Vec3
  mass : ℚ
  collision_radius : ℚ
deriving DecidableEq, Repr

/-- Fragment count from collision energy and total mass, embedding
`calculate_debris_count` (src/systems/collision.rs lines 287-294).
The rust casts `(x: f64).sqrt() as u32` truncate a nonnegative float toward
zero, i.e. take `⌊sqrt x⌋`, which over exact arithmetic equals
`Nat.sqrt ⌊x⌋` (proved below as `natSqrt_floor_eq`); a negative argument
casts to 0, matching `Nat.floor` of a negative rational.  The rust code
applies `.min(10.0)` before the cast; since 10 is integral this commutes
with the floor (`⌊min s 10⌋ = min ⌊s⌋ 10`). -/
def calculate_debris_count (collision_energy : ℚ) (total_mass : ℚ) : ℕ :=
  let base_debris := Nat.sqrt ⌊total_mass / 1000⌋₊
  let energy_multiplier := min (Nat.sqrt ⌊collision_energy / 10 ^ 12⌋₊) 10
  clampNat (base_debris + energy_multiplier) 2 50

/-! ### Octree spatial index (src/systems/collision.rs lines 8-148)

`OctreeNode.children` is `Option<Box<[OctreeNode; 8]>>` in the source; it is
embedded as a (mutually inductive) list of child nodes, with the empty list
standing for `None` — `subdivide` is the only producer of children and always
creates exactly 8, so `Some` children lists are never empty. -/

mutual
/-- Octree node: center (km), half size (km), max depth, current depth,
contained entity ids, children. -/
inductive OctreeNode where
  | mk (center : Vec3) (half_size : ℚ) (max_depth : ℕ) (depth : ℕ)
       (objects : List ℕ) (children : OctreeList)
/-- List of child octree nodes (`None` = `nil`, `Some [8 children]` = 8 conses). -/
inductive OctreeList where
  | nil
  | cons (hd : OctreeNode) (tl : OctreeList)
end

/-- `OctreeNode::new`: empty node with no children. -/
def OctreeNode.new (center : Vec3) (half_size : ℚ) (max_depth depth : ℕ) : OctreeNode :=
  .mk center half_size max_depth depth [] .nil

def OctreeNode.center : OctreeNode → Vec3
  | .mk c _ _ _ _ _ => c

def OctreeNode.half_size : OctreeNode → ℚ
  | .mk _ h _ _ _ _ => h

def OctreeNode.max_depth : OctreeNode → ℕ
  | .mk _ _ md _ _ _ => md

def OctreeNode.depth : OctreeNode → ℕ
  | .mk _ _ _ d _ _ => d

def OctreeNode.objects : OctreeNode → List ℕ
  | .mk _ _ _ _ os _ => os

def OctreeNode.children : OctreeNode → OctreeList
  | .mk _ _ _ _ _ cs => cs

def OctreeList.isNil : OctreeList → Bool
  | .nil => true
  | .cons _ _ => false

/-- `OctreeNode::contains_point`: inclusive axis-aligned bound check. -/
def containsPointB (center : Vec3) (half_size : ℚ) (point : Vec3) : Bool :=
  decide (center.x - half_size ≤ point.x) && decide (point.x ≤ center.x + half_size) &&
  decide (center.y - half_size ≤ point.y) && decide (point.y ≤ center.y + half_size) &&
  decide (center.z - half_size ≤ point.z) && decide (point.z ≤ center.z + half_size)

/-- `OctreeNode::sphere_intersects_cube`: clamp the sphere center to the cube
and compare the distance to the radius (`length() <= radius`). -/
def sphereIntersectsCubeB (center : Vec3) (half_size : ℚ) (sc : Vec3) (r : ℚ) : Bool :=
  let closest : Vec3 := ⟨clampQ sc.x (center.x - half_size) (center.x + half_size),
                         clampQ sc.y (center.y - half_size) (center.y + half_size),
                         clampQ sc.z (center.z - half_size) (center.z + half_size)⟩
  (closest - sc).lengthLe r

/-- `OctreeNode::subdivide`: 8 fresh children at depth+1 with quarter size, in
the source's order (bottom z-layer then top z-layer). -/
def subdivideChildren (c : Vec3) (h : ℚ) (md d : ℕ) : OctreeList :=
  let q := h / 2
  let nd := d + 1
  .cons (OctreeNode.new (c + ⟨-q, -q, -q⟩) q md nd) (
  .cons (OctreeNode.new (c + ⟨q, -q, -q⟩) q md nd) (
  .cons (OctreeNode.new (c + ⟨-q, q, -q⟩) q md nd) (
  .cons (OctreeNode.new (c + ⟨q, q, -q⟩) q md nd) (
  .cons (OctreeNode.new (c + ⟨-q, -q, q⟩) q md nd) (
  .cons (OctreeNode.new (c + ⟨q, -q, q⟩) q md nd) (
  .cons (OctreeNode.new (c + ⟨-q, q, q⟩) q md nd) (
  .cons (OctreeNode.new (c + ⟨q, q, q⟩) q md nd) .nil)))))))

/-- Insertion into a node that is known to be childless and below capacity
(the case of the 8 fresh children created by `subdivide`): `insert` on such a
node reduces to the containment test plus a push (`leafInsert_eq_insert`
below proves this agrees with `OctreeNode.insert`). -/
def leafInsert (t : OctreeNode) (e : ℕ) (p : Vec3) : OctreeNode × Bool :=
  match t with
  | .mk c h md d os cs =>
    if containsPointB c h p then (.mk c h md d (os ++ [e]) cs, true) else (t, false)

/-- Sequential insertion attempts over freshly subdivided children
(`for child in children { if child.insert(..) { return true } }`). -/
def leafInsertL : OctreeList → ℕ → Vec3 → OctreeList × Bool
  | .nil, _, _ => (.nil, false)
  | .cons hd tl, e, p =>
    match leafInsert hd e p with
    | (hd', true) => (.cons hd' tl, true)
    | (hd', false) =>
      match leafInsertL tl e p with
      | (tl', b) => (.cons hd' tl', b)

mutual
/-- `OctreeNode::insert` (src/systems/collision.rs lines 38-62): reject the
point if outside this node; subdivide when holding at least
`MAX_OBJECTS_PER_NODE = 4` objects below `max_depth` with no children yet;
try children in order; if no child claims the point, push it here. -/
def OctreeNode.insert : OctreeNode → ℕ → Vec3 → OctreeNode × Bool
  | t@(.mk c h md d os cs), e, p =>
    if containsPointB c h p then
      if 4 ≤ os.length ∧ d < md ∧ cs.isNil = true then
        match leafInsertL (subdivideChildren c h md d) e p with
        | (cs', true) => (.mk c h md d os cs', true)
        | (cs', false) => (.mk c h md d (os ++ [e]) cs', true)
      else
        match OctreeList.insertL cs e p with
        | (cs', true) => (.mk c h md d os cs', true)
        | (cs', false) => (.mk c h md d (os ++ [e]) cs', true)
    else (t, false)
/-- Try inserting into each child in order, stopping at the first success. -/
def OctreeList.insertL : OctreeList → ℕ → Vec3 → OctreeList × Bool
  | .nil, _, _ => (.nil, false)
  | .cons hd tl, e, p =>
    match hd.insert e p with
    | (hd', true) => (.cons hd' tl, true)
    | (hd', false) =>
      match OctreeList.insertL tl e p with
      | (tl', b) => (.cons hd' tl', b)
end

mutual
/-- `OctreeNode::query_sphere`: prune on sphere/cube intersection, collect
this node's objects, recurse into children (DFS order). -/
def OctreeNode.query_sphere : OctreeNode → Vec3 → ℚ → List ℕ
  | .mk c h _ _ os cs, sc, r =>
    if sphereIntersectsCubeB c h sc r then os ++ OctreeList.queryL cs sc r else []
/-- Query every child in order. -/
def OctreeList.queryL : OctreeList → Vec3 → ℚ → List ℕ
  | .nil, _, _ => []
  | .cons hd tl, sc, r => hd.query_sphere sc r ++ OctreeList.queryL tl sc r
end

mutual
/-- `OctreeNode::clear`: empty every node's object list, keeping the child
structure. -/
def OctreeNode.clear : OctreeNode → OctreeNode
  | .mk c h md d _ cs => .mk c h md d [] (OctreeList.clearL cs)
def OctreeList.clearL : OctreeList → OctreeList
  | .nil => .nil
  | .cons hd tl => .cons hd.clear (OctreeList.clearL tl)
end

mutual
/-- All entity ids stored anywhere in the tree (DFS order). -/
def OctreeNode.allObjects : OctreeNode → List ℕ
  | .mk _ _ _ _ os cs => os ++ OctreeList.allObjectsL cs
def OctreeList.allObjectsL : OctreeList → List ℕ
  | .nil => []
  | .cons hd tl => hd.allObjects ++ OctreeList.allObjectsL tl
end

/-- The root created by `SpatialOctree::default`: centered at the origin,
half size 50,000 km, max depth 6, depth 0. -/
def defaultOctree : OctreeNode := OctreeNode.new ⟨0, 0, 0⟩ 50000 6 0

/-- Fold a list of (entity, position) insertions into a tree. -/
def buildPoints (t : OctreeNode) (l : List (ℕ × Vec3)) : OctreeNode :=
  l.foldl (fun acc ep => (acc.insert ep.1 ep.2).1) t

/-- `update_spatial_octree_system` (src/systems/collision.rs lines 157-168):
clear the tree, then insert every object at its current position (the
returned bool is ignored). -/
def update_spatial_octree (t : OctreeNode) (pop : List SimObject) : OctreeNode :=
  buildPoints t.clear (pop.map fun o => (o.id, o.position))

/-! ### Collision detector (src/systems/collision.rs lines 171-224) -/

/-- Canonical (lower entity index first) ordering of a candidate pair. -/
def canonPair (a b : ℕ) : ℕ × ℕ := if a < b then (a, b) else (b, a)

/-- Detector state: the `checked_pairs` set (modelled as a list used only
through membership) and the recorded `collision_pairs.pairs` vector. -/
structure DetState where
  checked : List (ℕ × ℕ)
  pairs : List (ℕ × ℕ)

/-- Handling of one candidate `other_entity` for the current object `a`:
skip self, canonicalize, dedup against `checked_pairs`, look the candidate up
in the query (`orbital_query.get`), and record the pair when the exact
distance test `distance <= combined_radius` confirms the collision. -/
def processOther (pop : List SimObject) (a : SimObject) (st : DetState) (o : ℕ) : DetState :=
  if o = a.id then st
  else
    let pr := canonPair a.id o
    if pr ∈ st.checked then st
    else
      let st' : DetState := ⟨pr :: st.checked, st.pairs⟩
      match pop.find? (fun b => decide (b.id = o)) with
      | none => st'
      | some b =>
        if (a.position - b.position).lengthLe (a.collision_radius + b.collision_radius) then
          ⟨st'.checked, st'.pairs ++ [(a.id, o)]⟩
        else st'

/-- Outer loop body: query the octree around object `a` with search radius
`2 * collision_radius`, then process every returned candidate in order. -/
def processObject (pop : List SimObject) (tree : OctreeNode) (st : DetState) (a : SimObject) :
    DetState :=
  (tree.query_sphere a.position (a.collision_radius * 2)).foldl (processOther pop a) st

/-- `collision_detection_system`: clear the pair list, then run the
broad-phase query plus exact check for every object, returning the recorded
collision pairs. -/
def collision_detection (pop : List SimObject) (tree : OctreeNode) : List (ℕ × ℕ) :=
  (pop.foldl (processObject pop tree) ⟨[], []⟩).pairs

/-! ### Debris generator (src/systems/collision.rs lines 227-318 and
src/components/objects.rs lines 22-50) -/

/-- The `Debris` lineage component. -/
structure Debris where
  parent_collision : Option ℕ
  generation : ℕ
  creation_time : ℚ
deriving DecidableEq, Repr

/-- `Debris::new`. -/
def Debris.new (parent_collision : Option ℕ) (generation : ℕ) (creation_time : ℚ) : Debris :=
  ⟨parent_collision, generation, creation_time⟩

/-- `Debris::from_collision` (src/components/objects.rs lines 42-44):
generation is hard-wired to 1. -/
def Debris.from_collision (collision_id : ℕ) (creation_time : ℚ) : Debris :=
  Debris.new (some collision_id) 1 creation_time

/-- `Debris::from_debris` (src/components/objects.rs lines 47-49): parent
generation plus one.  Never called by `debris_generation_system`. -/
def Debris.from_debris (parent : Debris) (collision_id : ℕ) (creation_time : ℚ) : Debris :=
  Debris.new (some collision_id) (parent.generation + 1) creation_time

/-- One spawned fragment: its `Debris` component, `OrbitalState` fields and
`PhysicsObject` mass. -/
structure Fragment where
  debris : Debris
  position : Vec3
  velocity : Vec3
  mass : ℚ
deriving DecidableEq, Repr

/-- Commands issued by one run of the debris generator.  Bevy `Commands` are
deferred: spawns and despawns queue up and apply only after the system
finishes, so `orbital_query` continues to see the pre-run population for
every pair processed in the same step.  `count` models the `Local<u32>`
debris counter. -/
structure GenState where
  spawns : List Fragment
  despawns : List ℕ
  count : ℕ
deriving DecidableEq, Repr

/-- Fragments spawned for one confirmed collision (the loop body of
`debris_generation_system`, src/systems/collision.rs lines 237-275).
`kick` abstracts the `generate_debris_velocity` random summand
`random_dir * debris_kick_speed` (a `thread_rng` draw), indexed by the
running debris counter; no claim depends on its distribution. -/
def process_collision (kick : ℕ → Vec3) (o1 o2 : SimObject) (count0 : ℕ) :
    List Fragment × ℕ :=
  let collision_point := (1 / 2 : ℚ) • (o1.position + o2.position)
  let relative_velocity := o2.velocity - o1.velocity
  let collision_energy := (1 / 2 : ℚ) * (o1.mass + o2.mass) * relative_velocity.lengthSq
  let debris_pieces := calculate_debris_count collision_energy (o1.mass + o2.mass)
  let avg_velocity := (1 / 2 : ℚ) • (o1.velocity + o2.velocity)
  let frags := (List.range debris_pieces).map fun i =>
    let count := count0 + i + 1
    let debris_mass := (o1.mass + o2.mass) / (debris_pieces : ℚ) * (1 / 10)
    { debris := Debris.from_collision count 0
      position := collision_point
      velocity := avg_velocity + kick count
      mass := debris_mass }
  (frags, count0 + debris_pieces)

/-- `debris_generation_system`: process each recorded pair in order; a pair
is skipped when either participant is absent from the population the system
started with (entities removed in earlier steps); otherwise fragments are
spawned and both participants are despawned.  Because commands are deferred,
lookups never observe despawns issued earlier in the same run. -/
def debris_generation_step (kick : ℕ → Vec3) (pop : List SimObject)
    (st : GenState) (ep : ℕ × ℕ) : GenState :=
  match pop.find? (fun o => decide (o.id = ep.1)), pop.find? (fun o => decide (o.id = ep.2)) with
  | some o1, some o2 =>
    let res := process_collision kick o1 o2 st.count
    ⟨st.spawns ++ res.1, st.despawns ++ [ep.1, ep.2], res.2⟩
  | _, _ => st

def debris_generation (kick : ℕ → Vec3) (pop : List SimObject)
    (pairs : List (ℕ × ℕ)) : GenState :=
  pairs.foldl (debris_generation_step kick pop) ⟨[], [], 0⟩

/-- One semi-implicit Euler step from `physics_system`
(src/systems/physics.rs lines 23-72) for a single object, with the radial
magnitude `r = |position|` (km) passed as a parameter (the source computes it
with `sqrt`; theorems tie it to the position by the hypothesis
`r * r = pos.lengthSq`).  Returns (new position, new velocity). -/
def physics_step (gm dt : ℚ) (r : ℚ) (pos vel : Vec3) : Vec3 × Vec3 :=
  let rm := r * 1000
  if 0 < rm then
    let accMag := -gm / (rm * rm)
    let accKm := accMag / 1000
    let acc : Vec3 := ⟨pos.x / r * accKm, pos.y / r * accKm, pos.z / r * accKm⟩
    let v' : Vec3 := ⟨vel.x + acc.x * dt, vel.y + acc.y * dt, vel.z + acc.z * dt⟩
    let p' : Vec3 := ⟨pos.x + v'.x * dt, pos.y + v'.y * dt, pos.z + v'.z * dt⟩
    (p', v')
  else (pos, vel)

/-! ### Helper lemmas -/

theorem Vec3.add_def (a b : Vec3) : a + b = ⟨a.x + b.x, a.y + b.y, a.z + b.z⟩ := rfl

theorem Vec3.sub_def (a b : Vec3) : a - b = ⟨a.x - b.x, a.y - b.y, a.z - b.z⟩ := rfl

theorem Vec3.smul_def (q : ℚ) (v : Vec3) : q • v = ⟨q * v.x, q * v.y, q * v.z⟩ := rfl

/-- Rust `u32=clamp(2, 50)` agrees with `max 2 (min 50 ·)`. -/
theorem clampNat_eq (n : ℕ) : clampNat n 2 50 = max 2 (min 50 n) := by
  unfold clampNat
  split
  · omega
  · split <;> omega

/-- Fragment counts always land in [2, 50]. -/
theorem calculate_debris_count_bounds (e m : ℚ) :
    2 ≤ calculate_debris_count e m ∧ calculate_debris_count e m ≤ 50 := by
  simp only [calculate_debris_count, clampNat_eq]
  omega

/-- The natural floor of a real square root is the natural square root of
the natural floor (`⌊√x⌋₊ = Nat.sqrt ⌊x⌋₊`), justifying the embedding of
`(x.sqrt() as u32)` as `Nat.sqrt ⌊x⌋₊`. -/
theorem natFloor_real_sqrt (x : ℝ) (hx : 0 ≤ x) :
    ⌊Real.sqrt x⌋₊ = Nat.sqrt ⌊x⌋₊ := by
  apply le_antisymm
  · rw [Nat.le_sqrt]
    apply Nat.le_floor
    have h1 : (⌊Real.sqrt x⌋₊ : ℝ) ≤ Real.sqrt x := Nat.floor_le (Real.sqrt_nonneg x)
    calc ((⌊Real.sqrt x⌋₊ * ⌊Real.sqrt x⌋₊ : ℕ) : ℝ)
        = (⌊Real.sqrt x⌋₊ : ℝ) * (⌊Real.sqrt x⌋₊ : ℝ) := by push_cast; ring
      _ ≤ Real.sqrt x * Real.sqrt x :=
          mul_le_mul h1 h1 (by positivity) (Real.sqrt_nonneg x)
      _ = x := Real.mul_self_sqrt hx
  · apply Nat.le_floor
    refine (Real.le_sqrt (by positivity) hx).mpr ?_
    calc ((Nat.sqrt ⌊x⌋₊ : ℝ)) ^ 2
        = ((Nat.sqrt ⌊x⌋₊ * Nat.sqrt ⌊x⌋₊ : ℕ) : ℝ) := by push_cast; ring
      _ ≤ ((⌊x⌋₊ : ℕ) : ℝ) := Nat.cast_le.mpr (Nat.sqrt_le _)
      _ ≤ x := Nat.floor_le hx

/-- Casting a rational to the reals commutes with the natural floor. -/
theorem natFloor_ratCast (q : ℚ) : ⌊(q : ℝ)⌋₊ = ⌊q⌋₊ := by
  rw [← Int.floor_toNat, ← Int.floor_toNat, Rat.floor_cast]

/-! ### C2: fragment-count formula and bounds -/

/-- C2: for total parent mass > 0 and collision energy >= 0, the generated
fragment count equals
`clamp(floor(sqrt(total_mass / 1000)) + min(floor(sqrt(energy / 1e12)), 10), 2, 50)`
(with real square roots and floors), and always lies in [2, 50]. -/
theorem debris_count_matches_spec (e m : ℚ) (hm : 0 < m) (he : 0 ≤ e) :
    (calculate_debris_count e m : ℤ) =
      max 2 (min 50 (⌊Real.sqrt ((m : ℝ) / 1000)⌋ +
        min ⌊Real.sqrt ((e : ℝ) / 10 ^ 12)⌋ 10)) ∧
    2 ≤ calculate_debris_count e m ∧ calculate_debris_count e m ≤ 50 := by
  refine ⟨?_, calculate_debris_count_bounds e m⟩
  have hm' : (0:ℝ) ≤ (m : ℝ) / 1000 := by positivity
  have he' : (0:ℝ) ≤ (e : ℝ) / 10 ^ 12 := by positivity
  have h1 : ⌊Real.sqrt ((m : ℝ) / 1000)⌋ = (Nat.sqrt ⌊m / 1000⌋₊ : ℤ) := by
    rw [← Int.natCast_floor_eq_floor (Real.sqrt_nonneg _), natFloor_real_sqrt _ hm']
    congr 2
    rw [show ((m:ℝ)/1000) = ((m / 1000 : ℚ) : ℝ) by push_cast; ring, natFloor_ratCast]
  have h2 : ⌊Real.sqrt ((e : ℝ) / 10 ^ 12)⌋ = (Nat.sqrt ⌊e / 10 ^ 12⌋₊ : ℤ) := by
    rw [← Int.natCast_floor_eq_floor (Real.sqrt_nonneg _), natFloor_real_sqrt _ he']
    congr 2
    rw [show ((e:ℝ)/10 ^ 12) = ((e / 10 ^ 12 : ℚ) : ℝ) by push_cast; ring, natFloor_ratCast]
  rw [h1, h2]
  unfold calculate_debris_count
  rw [clampNat_eq]
  push_cast
  omega

/-- Witness for C2 at `m = 1000`, `e = 0`. -/
theorem debris_count_matches_spec_witness :
    (0:ℚ) < 1000 ∧ (0:ℚ) ≤ 0 ∧
    ((calculate_debris_count 0 1000 : ℤ) =
      max 2 (min 50 (⌊Real.sqrt (((1000:ℚ) : ℝ) / 1000)⌋ +
        min ⌊Real.sqrt (((0:ℚ) : ℝ) / 10 ^ 12)⌋ 10)) ∧
    2 ≤ calculate_debris_count 0 1000 ∧ calculate_debris_count 0 1000 ≤ 50) :=
  ⟨by norm_num, le_refl 0, debris_count_matches_spec 0 1000 (by norm_num) (le_refl 0)⟩

/-! ### C5: semi-implicit Euler update -/

/-- C5: for an object whose position has non-zero magnitude `r` (km), one
integrator step computes acceleration `-GM / (1000*r)^2` along the unit
position vector, converted to km/s² (a further division by 1000), updates
velocity first (`v' = v + a*dt`), then position with the new velocity
(`p' = p + v'*dt`). -/
theorem physics_step_semi_implicit_euler (gm dt r : ℚ) (pos vel : Vec3)
    (hr : 0 < r) (hmag : r * r = pos.lengthSq) :
    physics_step gm dt r pos vel =
      (pos + dt • (vel + dt • ((-gm / ((1000 * r) * (1000 * r)) / 1000) • ((1 / r) • pos))),
       vel + dt • ((-gm / ((1000 * r) * (1000 * r)) / 1000) • ((1 / r) • pos))) := by
  have hrm : 0 < r * 1000 := by positivity
  have hr0 : r ≠ 0 := ne_of_gt hr
  obtain ⟨px, py, pz⟩ := pos
  obtain ⟨vx, vy, vz⟩ := vel
  unfold physics_step
  rw [if_pos hrm]
  simp only [Vec3.smul_def, Vec3.add_def, Prod.mk.injEq, Vec3.mk.injEq]
  refine ⟨⟨?_, ?_, ?_⟩, ?_, ?_, ?_⟩ <;> · field_simp; ring

/-- Witness for C5 at `gm = 2`, `dt = 1`, `r = 5`, `pos = (3,4,0)`,
`vel = (0,0,0)`. -/
theorem physics_step_semi_implicit_euler_witness :
    (0:ℚ) < 5 ∧ (5:ℚ) * 5 = Vec3.lengthSq ⟨3, 4, 0⟩ ∧
    physics_step 2 1 5 ⟨3, 4, 0⟩ ⟨0, 0, 0⟩ =
      ((⟨3, 4, 0⟩ : Vec3) + (1:ℚ) • ((⟨0, 0, 0⟩ : Vec3) +
          (1:ℚ) • (((-2 : ℚ) / ((1000 * 5) * (1000 * 5)) / 1000) • ((1 / 5 : ℚ) • (⟨3, 4, 0⟩ : Vec3)))),
       (⟨0, 0, 0⟩ : Vec3) + (1:ℚ) • (((-2 : ℚ) / ((1000 * 5) * (1000 * 5)) / 1000) •
          ((1 / 5 : ℚ) • (⟨3, 4, 0⟩ : Vec3)))) :=
  ⟨by norm_num, by norm_num [Vec3.lengthSq],
    physics_step_semi_implicit_euler 2 1 5 ⟨3, 4, 0⟩ ⟨0, 0, 0⟩ (by norm_num)
      (by norm_num [Vec3.lengthSq])⟩

/-! ### C3, C4, C9: debris generator properties -/

/-- Every fragment of one processed collision carries generation 1
(`Debris::from_collision` hard-wires it). -/
theorem process_collision_generation (kick : ℕ → Vec3) (o1 o2 : SimObject) (c0 : ℕ) :
    ∀ f ∈ (process_collision kick o1 o2 c0).1, f.debris.generation = 1 := by
  intro f hf
  simp only [process_collision, List.mem_map, List.mem_range] at hf
  obtain ⟨i, _, rfl⟩ := hf
  rfl

/-- Generation-1 spawns are preserved by the generator's fold. -/
theorem debris_generation_aux (kick : ℕ → Vec3) (pop : List SimObject)
    (pairs : List (ℕ × ℕ)) (st : GenState)
    (h : ∀ f ∈ st.spawns, f.debris.generation = 1) :
    ∀ f ∈ (pairs.foldl (debris_generation_step kick pop) st).spawns,
      f.debris.generation = 1 := by
  induction pairs generalizing st with
  | nil => exact h
  | cons hd tl ih =>
    refine ih _ ?_
    unfold debris_generation_step
    rcases h1 : pop.find? (fun o => decide (o.id = hd.1)) with _ | o1 <;>
      rcases h2 : pop.find? (fun o => decide (o.id = hd.2)) with _ | o2 <;>
        simp only [h1, h2]
    · exact h
    · exact h
    · exact h
    · intro f hf
      rcases List.mem_append.mp hf with hf | hf
      · exact h f hf
      · exact process_collision_generation kick o1 o2 st.count f hf

/-- C3 evidence (code_bug): every fragment spawned by
`debris_generation_system` has generation exactly 1, for every population,
pair list and random kick — the generator calls `Debris::from_collision`
unconditionally, never `Debris::from_debris`, so a fragment of two
generation-1 debris parents gets generation 1 instead of the claimed
`max(parent generations) + 1 = 2`. -/
theorem fragment_generation_always_one (kick : ℕ → Vec3) (pop : List SimObject)
    (pairs : List (ℕ × ℕ)) :
    ∀ f ∈ (debris_generation kick pop pairs).spawns, f.debris.generation = 1 :=
  debris_generation_aux kick pop pairs ⟨[], [], 0⟩ (by intro f hf; cases hf)

/-- Two-object population used by several witnesses: masses 1000 kg, radii
1 km, positions 1 km apart, identical velocities. -/
def popW : List SimObject :=
  [⟨1, ⟨7000, 0, 0⟩, ⟨1, 0, 0⟩, 1000, 1⟩, ⟨2, ⟨7001, 0, 0⟩, ⟨1, 0, 0⟩, 1000, 1⟩]

/-- The first fragment spawned for the collision of `popW`'s two objects. -/
def fragW : Fragment :=
  ⟨⟨some 1, 1, 0⟩, ⟨14001 / 2, 0, 0⟩, ⟨1, 0, 0⟩, 100⟩

/-- The first fragment of the `popW` collision is among the generator's
spawns (shared by several witnesses). -/
theorem fragW_mem_debris_generation :
    fragW ∈ (debris_generation (fun _ => 0) popW [(1, 2)]).spawns := by
  simp [debris_generation, debris_generation_step, popW, List.find?, process_collision,
        calculate_debris_count, clampNat, Vec3.sub_def, Vec3.add_def, Vec3.smul_def,
        Vec3.lengthSq, fragW, Debris.from_collision, Debris.new, List.range_succ]
  norm_num
  exact ⟨0, by norm_num, rfl, rfl, rfl, rfl⟩

/-- Witness for C3's theorem at a concrete collision. -/
theorem fragment_generation_always_one_witness :
    fragW ∈ (debris_generation (fun _ => 0) popW [(1, 2)]).spawns ∧
    fragW.debris.generation = 1 :=
  ⟨fragW_mem_debris_generation,
    fragment_generation_always_one (fun _ => 0) popW [(1, 2)] fragW
      fragW_mem_debris_generation⟩

/-- Three-object population in which object 1 participates in two recorded
pairs in the same step. -/
def popShared : List SimObject :=
  [⟨1, ⟨7000, 0, 0⟩, ⟨1, 0, 0⟩, 1000, 1⟩, ⟨2, ⟨7001, 0, 0⟩, ⟨1, 0, 0⟩, 1000, 1⟩,
   ⟨3, ⟨7002, 0, 0⟩, ⟨1, 0, 0⟩, 1000, 1⟩]

/-- C4 evidence (code_bug): with pairs `[(1,2), (1,3)]` sharing object 1 and
all three objects alive at the start of the step, the generator processes
BOTH pairs — Bevy commands are deferred, so the `orbital_query.get` guard
still sees object 1 when the second pair is reached: despawn is issued for
object 1 twice and fragments (2 per pair here) are spawned for the second
pair as well, contrary to the claimed skip. -/
theorem shared_entity_pair_not_skipped :
    (debris_generation (fun _ => 0) popShared [(1, 2), (1, 3)]).despawns = [1, 2, 1, 3] ∧
    (debris_generation (fun _ => 0) popShared [(1, 2), (1, 3)]).spawns.length = 4 := by
  constructor
  · simp [debris_generation, debris_generation_step, popShared, List.find?, process_collision]
  · simp [debris_generation, debris_generation_step, popShared, List.find?, process_collision,
          calculate_debris_count, clampNat, Vec3.sub_def, Vec3.lengthSq]
    norm_num

/-- C9: when both parents have strictly positive mass, every fragment of the
collision has mass `(mass_A + mass_B) / N * 0.1` (N the fragment count), and
that mass is strictly positive. -/
theorem fragment_mass_correct (kick : ℕ → Vec3) (o1 o2 : SimObject) (c0 : ℕ)
    (h1 : 0 < o1.mass) (h2 : 0 < o2.mass) :
    ∀ f ∈ (process_collision kick o1 o2 c0).1,
      f.mass = (o1.mass + o2.mass) /
        (calculate_debris_count
          ((1 / 2 : ℚ) * (o1.mass + o2.mass) * (o2.velocity - o1.velocity).lengthSq)
          (o1.mass + o2.mass) : ℚ) * (1 / 10) ∧
      0 < f.mass := by
  intro f hf
  simp only [process_collision, List.mem_map, List.mem_range] at hf
  obtain ⟨i, _, rfl⟩ := hf
  refine ⟨rfl, ?_⟩
  have hn := (calculate_debris_count_bounds
    ((1 / 2 : ℚ) * (o1.mass + o2.mass) * (o2.velocity - o1.velocity).lengthSq)
    (o1.mass + o2.mass)).1
  have hnq : (0:ℚ) < (calculate_debris_count
      ((1 / 2 : ℚ) * (o1.mass + o2.mass) * (o2.velocity - o1.velocity).lengthSq)
      (o1.mass + o2.mass) : ℚ) := by
    exact_mod_cast lt_of_lt_of_le (by norm_num) hn
  have hm : (0:ℚ) < o1.mass + o2.mass := by linarith
  show (0:ℚ) < (o1.mass + o2.mass) /
      (calculate_debris_count
        ((1 / 2 : ℚ) * (o1.mass + o2.mass) * (o2.velocity - o1.velocity).lengthSq)
        (o1.mass + o2.mass) : ℚ) * (1 / 10)
  positivity

/-- The first fragment of the `popW` collision is among that collision's
spawned fragments. -/
theorem fragW_mem_process_collision :
    fragW ∈ (process_collision (fun _ => 0)
      ⟨1, ⟨7000, 0, 0⟩, ⟨1, 0, 0⟩, 1000, 1⟩ ⟨2, ⟨7001, 0, 0⟩, ⟨1, 0, 0⟩, 1000, 1⟩ 0).1 := by
  simp [process_collision, calculate_debris_count, clampNat, Vec3.sub_def, Vec3.add_def,
        Vec3.smul_def, Vec3.lengthSq, fragW, Debris.from_collision, Debris.new,
        List.range_succ]
  norm_num
  exact ⟨0, by norm_num, rfl, rfl, rfl, rfl⟩

/-- Witness for C9 at the `popW` collision. -/
theorem fragment_mass_correct_witness :
    (0:ℚ) < 1000 ∧
    fragW ∈ (process_collision (fun _ => 0)
      ⟨1, ⟨7000, 0, 0⟩, ⟨1, 0, 0⟩, 1000, 1⟩ ⟨2, ⟨7001, 0, 0⟩, ⟨1, 0, 0⟩, 1000, 1⟩ 0).1 ∧
    (fragW.mass = (SimObject.mass ⟨1, ⟨7000, 0, 0⟩, ⟨1, 0, 0⟩, 1000, 1⟩ +
        SimObject.mass ⟨2, ⟨7001, 0, 0⟩, ⟨1, 0, 0⟩, 1000, 1⟩) /
        (calculate_debris_count
          ((1 / 2 : ℚ) * (SimObject.mass ⟨1, ⟨7000, 0, 0⟩, ⟨1, 0, 0⟩, 1000, 1⟩ +
              SimObject.mass ⟨2, ⟨7001, 0, 0⟩, ⟨1, 0, 0⟩, 1000, 1⟩) *
            ((SimObject.velocity ⟨2, ⟨7001, 0, 0⟩, ⟨1, 0, 0⟩, 1000, 1⟩ -
              SimObject.velocity ⟨1, ⟨7000, 0, 0⟩, ⟨1, 0, 0⟩, 1000, 1⟩).lengthSq))
          (SimObject.mass ⟨1, ⟨7000, 0, 0⟩, ⟨1, 0, 0⟩, 1000, 1⟩ +
            SimObject.mass ⟨2, ⟨7001, 0, 0⟩, ⟨1, 0, 0⟩, 1000, 1⟩) : ℚ) * (1 / 10) ∧
      0 < fragW.mass) :=
  ⟨by norm_num, fragW_mem_process_collision,
    fragment_mass_correct (fun _ => 0) ⟨1, ⟨7000, 0, 0⟩, ⟨1, 0, 0⟩, 1000, 1⟩
      ⟨2, ⟨7001, 0, 0⟩, ⟨1, 0, 0⟩, 1000, 1⟩ 0 (by norm_num) (by norm_num) fragW
      fragW_mem_process_collision⟩

/-! ### Octree structural lemmas -/

/-- Insertion at a point outside the node leaves the node unchanged and
returns false (the guard at the top of `OctreeNode::insert`). -/
theorem insert_not_contains (c : Vec3) (h : ℚ) (md d : ℕ) (os : List ℕ) (cs : OctreeList)
    (e : ℕ) (p : Vec3) (hc : containsPointB c h p = false) :
    OctreeNode.insert (.mk c h md d os cs) e p = (.mk c h md d os cs, false) := by
  simp [OctreeNode.insert, hc]

/-- `insert` succeeds exactly when the node's cube contains the point. -/
theorem insert_snd (t : OctreeNode) (e : ℕ) (p : Vec3) :
    (t.insert e p).2 = containsPointB t.center t.half_size p := by
  cases t with
  | mk c h md d os cs =>
    simp only [OctreeNode.center, OctreeNode.half_size]
    by_cases hc : containsPointB c h p
    · simp only [OctreeNode.insert, hc, if_pos]
      split
      · split <;> rfl
      · split <;> rfl
    · simp [OctreeNode.insert, hc]

/-- `insert` only rewrites the node's object list and children: center,
half size, max depth and depth are untouched. -/
theorem insert_frame (c : Vec3) (h : ℚ) (md d : ℕ) (os : List ℕ) (cs : OctreeList)
    (e : ℕ) (p : Vec3) :
    ∃ os' cs', (OctreeNode.insert (.mk c h md d os cs) e p).1 = .mk c h md d os' cs' := by
  by_cases hc : containsPointB c h p
  · simp only [OctreeNode.insert, hc, if_pos]
    split
    · split <;> exact ⟨_, _, rfl⟩
    · split <;> exact ⟨_, _, rfl⟩
  · exact ⟨os, cs, by simp [OctreeNode.insert, hc]⟩

/-- Center is preserved by `insert`. -/
theorem insert_center (t : OctreeNode) (e : ℕ) (p : Vec3) :
    ((t.insert e p).1).center = t.center := by
  cases t with
  | mk c h md d os cs =>
    obtain ⟨os', cs', heq⟩ := insert_frame c h md d os cs e p
    rw [heq]; rfl

/-- Half size is preserved by `insert`. -/
theorem insert_half_size (t : OctreeNode) (e : ℕ) (p : Vec3) :
    ((t.insert e p).1).half_size = t.half_size := by
  cases t with
  | mk c h md d os cs =>
    obtain ⟨os', cs', heq⟩ := insert_frame c h md d os cs e p
    rw [heq]; rfl

/-- A failed `leafInsert` leaves the node unchanged. -/
theorem leafInsert_false_unchanged (t : OctreeNode) (e : ℕ) (p : Vec3)
    (hf : (leafInsert t e p).2 = false) : (leafInsert t e p).1 = t := by
  cases t with
  | mk c h md d os cs =>
    by_cases hc : containsPointB c h p
    · simp [leafInsert, hc] at hf
    · simp [leafInsert, hc]

/-- Object multiset after a `leafInsert`. -/
theorem leafInsert_allObjects (t : OctreeNode) (e : ℕ) (p : Vec3) :
    ((leafInsert t e p).1.allObjects : Multiset ℕ) =
      (if (leafInsert t e p).2 then {e} else 0) + (t.allObjects : Multiset ℕ) := by
  cases t with
  | mk c h md d os cs =>
    by_cases hc : containsPointB c h p
    · simp only [leafInsert, hc, if_pos, if_true, OctreeNode.allObjects]
      rw [← Multiset.coe_add, ← Multiset.coe_add]
      simp [Multiset.coe_singleton, ← Multiset.cons_coe, ← Multiset.singleton_add,
            ← Multiset.coe_add, add_comm, add_assoc, add_left_comm]
    · simp [leafInsert, hc]

/-- Object multiset after a `leafInsertL` over a child list. -/
theorem leafInsertL_allObjects : ∀ (cs : OctreeList) (e : ℕ) (p : Vec3),
    (((leafInsertL cs e p).1).allObjectsL : Multiset ℕ) =
      (if (leafInsertL cs e p).2 then {e} else 0) + (cs.allObjectsL : Multiset ℕ)
  | .nil, e, p => by simp [leafInsertL, OctreeList.allObjectsL]
  | .cons hd tl, e, p => by
    rcases hh : leafInsert hd e p with ⟨hd', b1⟩
    cases b1 with
    | true =>
      have h1 := leafInsert_allObjects hd e p
      rw [hh] at h1
      simp only [leafInsertL, hh, OctreeList.allObjectsL]
      rw [← Multiset.coe_add, ← Multiset.coe_add]
      simp only [if_true] at h1 ⊢
      rw [h1]
      simp [add_comm, add_assoc, add_left_comm]
    | false =>
      have h1 : (leafInsert hd e p).1 = hd := leafInsert_false_unchanged hd e p (by rw [hh])
      rw [hh] at h1; subst h1
      rcases ht : leafInsertL tl e p with ⟨tl', b2⟩
      have h2 := leafInsertL_allObjects tl e p
      rw [ht] at h2
      simp only [leafInsertL, hh, ht, OctreeList.allObjectsL]
      rw [← Multiset.coe_add, ← Multiset.coe_add, h2]
      cases b2 <;> simp [add_comm, add_assoc, add_left_comm]

/-- Fresh subdivided children hold no objects. -/
theorem subdivideChildren_allObjects (c : Vec3) (h : ℚ) (md d : ℕ) :
    (subdivideChildren c h md d).allObjectsL = [] := rfl

mutual
/-- Insertion adds exactly one copy of the entity to the tree's object
multiset when the point is accepted, and nothing otherwise. -/
theorem insert_allObjects : ∀ (t : OctreeNode) (e : ℕ) (p : Vec3),
    (((t.insert e p).1).allObjects : Multiset ℕ) =
      (if (t.insert e p).2 then {e} else 0) + (t.allObjects : Multiset ℕ)
  | .mk c h md d os cs, e, p => by
    by_cases hc : containsPointB c h p
    · simp only [OctreeNode.insert, hc, if_pos, if_true]
      split
      · next hcond =>
        obtain ⟨hlen, hdep, hnil⟩ := hcond
        have hcs : cs = .nil := by
          cases cs
          · rfl
          · simp [OctreeList.isNil] at hnil
        subst hcs
        rcases hl : leafInsertL (subdivideChildren c h md d) e p with ⟨cs', b⟩
        have h1 := leafInsertL_allObjects (subdivideChildren c h md d) e p
        rw [hl, subdivideChildren_allObjects] at h1
        cases b
        · simp only [hl, OctreeNode.allObjects, OctreeList.allObjectsL]
          rw [← Multiset.coe_add, ← Multiset.coe_add, h1]
          simp [← Multiset.coe_add, add_comm, add_assoc, add_left_comm]
        · simp only [hl, OctreeNode.allObjects, OctreeList.allObjectsL]
          rw [← Multiset.coe_add, ← Multiset.coe_add, h1]
          simp [← Multiset.coe_add, add_comm, add_assoc, add_left_comm]
      · next hcond =>
        rcases ht : OctreeList.insertL cs e p with ⟨cs', b⟩
        have h2 := insertL_allObjects cs e p
        rw [ht] at h2
        cases b
        · simp only [ht, OctreeNode.allObjects]
          rw [← Multiset.coe_add, ← Multiset.coe_add, h2]
          simp [← Multiset.coe_add, add_comm, add_assoc, add_left_comm]
        · simp only [ht, OctreeNode.allObjects]
          rw [← Multiset.coe_add, ← Multiset.coe_add, h2]
          simp [← Multiset.coe_add, add_comm, add_assoc, add_left_comm]
    · have := insert_not_contains c h md d os cs e p (by simpa using hc)
      rw [this]
      simp

/-- Companion of `insert_allObjects` for child lists. -/
theorem insertL_allObjects : ∀ (cs : OctreeList) (e : ℕ) (p : Vec3),
    ((OctreeList.insertL cs e p).1.allObjectsL : Multiset ℕ) =
      (if (OctreeList.insertL cs e p).2 then {e} else 0) + (cs.allObjectsL : Multiset ℕ)
  | .nil, e, p => by simp [OctreeList.insertL, OctreeList.allObjectsL]
  | .cons hd tl, e, p => by
    rcases hh : hd.insert e p with ⟨hd', b⟩
    have h1 := insert_allObjects hd e p
    rw [hh] at h1
    cases b
    · rcases ht : OctreeList.insertL tl e p with ⟨tl', b2⟩
      have h2 := insertL_allObjects tl e p
      rw [ht] at h2
      simp only [OctreeList.insertL, hh, ht, OctreeList.allObjectsL]
      rw [← Multiset.coe_add, ← Multiset.coe_add, h1, h2]
      cases b2 <;> simp [add_comm, add_assoc, add_left_comm]
    · simp only [OctreeList.insertL, hh, OctreeList.allObjectsL]
      rw [← Multiset.coe_add, ← Multiset.coe_add, h1]
      simp [add_comm, add_assoc, add_left_comm]
end

/-- The objects stored after folding a list of insertions: the initial
contents plus exactly the inserted points whose position lies inside the
root cube. -/
theorem buildPoints_allObjects (l : List (ℕ × Vec3)) : ∀ (t : OctreeNode),
    ((buildPoints t l).allObjects : Multiset ℕ) =
      (t.allObjects : Multiset ℕ) +
      ↑((l.filter fun ep => containsPointB t.center t.half_size ep.2).map Prod.fst) := by
  induction l with
  | nil => intro t; simp [buildPoints]
  | cons ep tl ih =>
    intro t
    have hstep : buildPoints t (ep :: tl) = buildPoints ((t.insert ep.1 ep.2).1) tl := rfl
    rw [hstep, ih, insert_center, insert_half_size, insert_allObjects, insert_snd]
    by_cases hc : containsPointB t.center t.half_size ep.2 <;>
      simp [hc, List.filter_cons, ← Multiset.coe_add, ← Multiset.cons_coe,
            ← Multiset.singleton_add, add_comm, add_assoc, add_left_comm]

mutual
/-- `clear` empties every object list in the tree. -/
theorem clear_allObjects : ∀ (t : OctreeNode), (t.clear).allObjects = []
  | .mk c h md d os cs => by
    simp [OctreeNode.clear, OctreeNode.allObjects, clearL_allObjectsL cs]
/-- Companion of `clear_allObjects` for child lists. -/
theorem clearL_allObjectsL : ∀ (cs : OctreeList), (OctreeList.clearL cs).allObjectsL = []
  | .nil => rfl
  | .cons hd tl => by
    simp [OctreeList.clearL, OctreeList.allObjectsL, clear_allObjects hd,
          clearL_allObjectsL tl]
end

/-- `clear` preserves a node's center. -/
theorem clear_center : ∀ (t : OctreeNode), (t.clear).center = t.center
  | .mk _ _ _ _ _ _ => rfl

/-- `clear` preserves a node's half size. -/
theorem clear_half_size : ∀ (t : OctreeNode), (t.clear).half_size = t.half_size
  | .mk _ _ _ _ _ _ => rfl

/-! ### C10: out-of-cube points are rejected and silently dropped -/

/-- C10: for a tree whose root cube is the default one (origin-centered,
half size 50,000 km), inserting an entity at a point outside that cube
returns false and leaves the whole tree unchanged; consequently, in the
per-step octree rebuild, an object whose position lies outside the root cube
ends up nowhere in the rebuilt tree. -/
theorem insert_outside_root_ignored (t : OctreeNode) (e : ℕ) (p : Vec3)
    (pop : List SimObject)
    (hc : t.center = ⟨0, 0, 0⟩) (hh : t.half_size = 50000)
    (hout : containsPointB ⟨0, 0, 0⟩ 50000 p = false)
    (hpop : ∀ b ∈ pop, b.id = e → b.position = p) :
    t.insert e p = (t, false) ∧ e ∉ (update_spatial_octree t pop).allObjects := by
  constructor
  · cases t with
    | mk c h' md d os cs =>
      have hc' : c = ⟨0, 0, 0⟩ := hc
      have hh' : h' = 50000 := hh
      subst hc'; subst hh'
      exact insert_not_contains _ _ _ _ _ _ _ _ hout
  · intro hmem
    have hq : e ∈ ((update_spatial_octree t pop).allObjects : Multiset ℕ) :=
      Multiset.mem_coe.mpr hmem
    unfold update_spatial_octree at hq
    rw [buildPoints_allObjects, clear_center, clear_half_size, clear_allObjects,
        hc, hh] at hq
    simp only [Multiset.coe_nil, zero_add, Multiset.mem_coe] at hq
    obtain ⟨ep, hepin, hepid⟩ := List.mem_map.mp hq
    obtain ⟨hepmem, hepcont⟩ := List.mem_filter.mp hepin
    simp only [List.mem_map] at hepmem
    obtain ⟨b, hbmem, rfl⟩ := hepmem
    have hbp : b.position = p := hpop b hbmem hepid
    rw [hbp] at hepcont
    rw [hout] at hepcont
    cases hepcont

/-- Witness for C10: object 7 at (60,000, 0, 0) km, outside the root cube. -/
theorem insert_outside_root_ignored_witness :
    defaultOctree.insert 7 ⟨60000, 0, 0⟩ = (defaultOctree, false) ∧
    7 ∉ (update_spatial_octree defaultOctree
          [⟨7, ⟨60000, 0, 0⟩, ⟨0, 0, 0⟩, 1000, 1⟩]).allObjects :=
  insert_outside_root_ignored defaultOctree 7 ⟨60000, 0, 0⟩
    [⟨7, ⟨60000, 0, 0⟩, ⟨0, 0, 0⟩, 1000, 1⟩] rfl rfl
    (by simp [containsPointB]; norm_num)
    (by intro b hb _; simp at hb; rw [hb])

/-! ### C6: the per-step rebuild vs a fresh rebuild -/

/-- `buildPoints` preserves the root center. -/
theorem buildPoints_center (l : List (ℕ × Vec3)) : ∀ (t : OctreeNode),
    (buildPoints t l).center = t.center := by
  induction l with
  | nil => intro t; rfl
  | cons ep tl ih =>
    intro t
    have hstep : buildPoints t (ep :: tl) = buildPoints ((t.insert ep.1 ep.2).1) tl := rfl
    rw [hstep, ih, insert_center]

/-- `buildPoints` preserves the root half size. -/
theorem buildPoints_half_size (l : List (ℕ × Vec3)) : ∀ (t : OctreeNode),
    (buildPoints t l).half_size = t.half_size := by
  induction l with
  | nil => intro t; rfl
  | cons ep tl ih =>
    intro t
    have hstep : buildPoints t (ep :: tl) = buildPoints ((t.insert ep.1 ep.2).1) tl := rfl
    rw [hstep, ih, insert_half_size]

/-- Five insertions along the x axis; the fifth one forces the root (which
then holds 4 objects) to subdivide. -/
def fivePts : List (ℕ × Vec3) :=
  [(1, ⟨1, 0, 0⟩), (2, ⟨2, 0, 0⟩), (3, ⟨3, 0, 0⟩), (4, ⟨4, 0, 0⟩), (5, ⟨5, 0, 0⟩)]

/-- A prior tree state reached by inserting `fivePts` into a fresh default
root: its root is subdivided (8 children). -/
def priorTree : OctreeNode := buildPoints defaultOctree fivePts

/-- One-object population used against `priorTree`. -/
def popC6 : List SimObject := [⟨9, ⟨0, 0, 0⟩, ⟨0, 0, 0⟩, 1, 1⟩]

/-- C6 counterexample: the per-step update (clear + reinsert) of the reached
tree `priorTree` does NOT equal the tree obtained by inserting the current
population into a fresh childless root — `clear` keeps the child skeleton
(and the reinserted object lands in a child), while the fresh rebuild has a
childless root. -/
theorem update_octree_differs_from_fresh_rebuild :
    update_spatial_octree priorTree popC6 ≠
      buildPoints defaultOctree (popC6.map fun o => (o.id, o.position)) := by
  intro hEq
  have h1 : (update_spatial_octree priorTree popC6).children.isNil = false := by
    norm_num [update_spatial_octree, buildPoints, priorTree, fivePts, popC6, defaultOctree,
      OctreeNode.new, OctreeNode.insert, containsPointB, OctreeList.isNil, subdivideChildren,
      leafInsertL, leafInsert, OctreeList.insertL, OctreeNode.children, Vec3.add_def,
      OctreeNode.clear, OctreeList.clearL]
  have h2 : (buildPoints defaultOctree (popC6.map fun o => (o.id, o.position))).children.isNil
      = true := by
    norm_num [buildPoints, popC6, defaultOctree, OctreeNode.new, OctreeNode.insert,
      containsPointB, OctreeList.isNil, subdivideChildren, leafInsertL, leafInsert,
      OctreeList.insertL, OctreeNode.children, Vec3.add_def]
  rw [hEq, h2] at h1
  cases h1

/-- C6 amended: the per-step update of any tree whose root cube is the
default one stores exactly the same multiset of entity ids as a fresh
rebuild from a childless default root (namely the in-bounds population);
only the node skeleton and object placement may differ. -/
theorem update_octree_same_multiset (t : OctreeNode) (pop : List SimObject)
    (hc : t.center = ⟨0, 0, 0⟩) (hh : t.half_size = 50000) :
    ((update_spatial_octree t pop).allObjects : Multiset ℕ) =
      ((buildPoints defaultOctree (pop.map fun o => (o.id, o.position))).allObjects
        : Multiset ℕ) := by
  unfold update_spatial_octree
  rw [buildPoints_allObjects, buildPoints_allObjects, clear_center, clear_half_size,
      clear_allObjects, hc, hh]
  rfl

/-- Witness for the amended C6 theorem at the reached tree `priorTree`. -/
theorem update_octree_same_multiset_witness :
    priorTree.center = ⟨0, 0, 0⟩ ∧ priorTree.half_size = 50000 ∧
    ((update_spatial_octree priorTree popC6).allObjects : Multiset ℕ) =
      ((buildPoints defaultOctree (popC6.map fun o => (o.id, o.position))).allObjects
        : Multiset ℕ) :=
  ⟨by rw [priorTree, buildPoints_center]; rfl,
   by rw [priorTree, buildPoints_half_size]; rfl,
   update_octree_same_multiset priorTree popC6
     (by rw [priorTree, buildPoints_center]; rfl)
     (by rw [priorTree, buildPoints_half_size]; rfl)⟩

/-! ### C8: subdivision capacity threshold -/

mutual
/-- Subdivision invariant: every node of the tree that has children held at
least 4 objects when it subdivided (and still does — objects are never
removed during a build) and sits strictly below `max_depth`. -/
def subdivisionInv : OctreeNode → Prop
  | .mk _ _ md d os cs => (cs.isNil = false → 4 ≤ os.length ∧ d < md) ∧ subdivisionInvL cs
/-- Companion of `subdivisionInv` for child lists. -/
def subdivisionInvL : OctreeList → Prop
  | .nil => True
  | .cons hd tl => subdivisionInv hd ∧ subdivisionInvL tl
end

/-- Freshly subdivided children are childless, hence satisfy the invariant. -/
theorem subdivideChildren_inv (c : Vec3) (h : ℚ) (md d : ℕ) :
    subdivisionInvL (subdivideChildren c h md d) := by
  simp [subdivideChildren, subdivisionInvL, subdivisionInv, OctreeNode.new, OctreeList.isNil]

/-- `leafInsert` preserves the invariant (it only appends an object). -/
theorem leafInsert_inv (t : OctreeNode) (e : ℕ) (p : Vec3)
    (ht : subdivisionInv t) : subdivisionInv (leafInsert t e p).1 := by
  cases t with
  | mk c h md d os cs =>
    by_cases hc : containsPointB c h p
    · simp only [leafInsert, hc, if_pos]
      obtain ⟨h1, h2⟩ := ht
      refine ⟨fun hn => ?_, h2⟩
      obtain ⟨hl, hd⟩ := h1 hn
      exact ⟨le_trans hl (by simp), hd⟩
    · simpa [leafInsert, hc] using ht

/-- `leafInsertL` preserves the invariant. -/
theorem leafInsertL_inv : ∀ (cs : OctreeList) (e : ℕ) (p : Vec3),
    subdivisionInvL cs → subdivisionInvL (leafInsertL cs e p).1
  | .nil, _, _, h => h
  | .cons hd tl, e, p, h => by
    obtain ⟨h1, h2⟩ := h
    rcases hh : leafInsert hd e p with ⟨hd', b⟩
    have hhd' : subdivisionInv hd' := by
      have := leafInsert_inv hd e p h1
      rwa [hh] at this
    cases b
    · rcases ht : leafInsertL tl e p with ⟨tl', b2⟩
      have htl' : subdivisionInvL tl' := by
        have := leafInsertL_inv tl e p h2
        rwa [ht] at this
      simp only [leafInsertL, hh, ht]
      exact ⟨hhd', htl'⟩
    · simp only [leafInsertL, hh]
      exact ⟨hhd', h2⟩

/-- `leafInsertL` does not change whether the child list is empty. -/
theorem leafInsertL_isNil (cs : OctreeList) (e : ℕ) (p : Vec3) :
    ((leafInsertL cs e p).1).isNil = cs.isNil := by
  cases cs with
  | nil => rfl
  | cons hd tl =>
    rcases hh : leafInsert hd e p with ⟨hd', b⟩
    cases b
    · rcases ht : leafInsertL tl e p with ⟨tl', b2⟩
      simp [leafInsertL, hh, ht, OctreeList.isNil]
    · simp [leafInsertL, hh, OctreeList.isNil]

/-- `insertL` does not change whether the child list is empty. -/
theorem insertL_isNil (cs : OctreeList) (e : ℕ) (p : Vec3) :
    ((OctreeList.insertL cs e p).1).isNil = cs.isNil := by
  cases cs with
  | nil => rfl
  | cons hd tl =>
    rcases hh : hd.insert e p with ⟨hd', b⟩
    cases b
    · rcases ht : OctreeList.insertL tl e p with ⟨tl', b2⟩
      simp [OctreeList.insertL, hh, ht, OctreeList.isNil]
    · simp [OctreeList.insertL, hh, OctreeList.isNil]

mutual
/-- `insert` preserves the subdivision invariant: children are only created
under the guard `objects.len() >= 4 && depth < max_depth`. -/
theorem insert_inv : ∀ (t : OctreeNode) (e : ℕ) (p : Vec3),
    subdivisionInv t → subdivisionInv (t.insert e p).1
  | .mk c h md d os cs, e, p, ht => by
    obtain ⟨h1, h2⟩ := ht
    by_cases hc : containsPointB c h p
    · simp only [OctreeNode.insert, hc, if_pos]
      split
      · next hcond =>
        obtain ⟨hlen, hdep, _⟩ := hcond
        rcases hl : leafInsertL (subdivideChildren c h md d) e p with ⟨cs', b⟩
        have hcs' : subdivisionInvL cs' := by
          have := leafInsertL_inv (subdivideChildren c h md d) e p
            (subdivideChildren_inv c h md d)
          rwa [hl] at this
        cases b
        · exact ⟨fun _ => ⟨le_trans hlen (by simp), hdep⟩, hcs'⟩
        · exact ⟨fun _ => ⟨hlen, hdep⟩, hcs'⟩
      · next hcond =>
        rcases ht' : OctreeList.insertL cs e p with ⟨cs', b⟩
        have hcs' : subdivisionInvL cs' := by
          have := insertL_inv cs e p h2
          rwa [ht'] at this
        have hnil : cs'.isNil = cs.isNil := by
          have := insertL_isNil cs e p
          rwa [ht'] at this
        cases b
        · refine ⟨fun hn => ?_, hcs'⟩
          obtain ⟨hl, hd⟩ := h1 (by rw [← hnil]; exact hn)
          exact ⟨le_trans hl (by simp), hd⟩
        · refine ⟨fun hn => h1 (by rw [← hnil]; exact hn), hcs'⟩
    · have := insert_not_contains c h md d os cs e p (by simpa using hc)
      rw [this]
      exact ⟨h1, h2⟩

/-- Companion of `insert_inv` for child lists. -/
theorem insertL_inv : ∀ (cs : OctreeList) (e : ℕ) (p : Vec3),
    subdivisionInvL cs → subdivisionInvL (OctreeList.insertL cs e p).1
  | .nil, _, _, h => h
  | .cons hd tl, e, p, h => by
    obtain ⟨h1, h2⟩ := h
    rcases hh : hd.insert e p with ⟨hd', b⟩
    have hhd' : subdivisionInv hd' := by
      have := insert_inv hd e p h1
      rwa [hh] at this
    cases b
    · rcases ht : OctreeList.insertL tl e p with ⟨tl', b2⟩
      have htl' : subdivisionInvL tl' := by
        have := insertL_inv tl e p h2
        rwa [ht] at this
      simp only [OctreeList.insertL, hh, ht]
      exact ⟨hhd', htl'⟩
    · simp only [OctreeList.insertL, hh]
      exact ⟨hhd', h2⟩
end

/-- C8 amended: for every insertion sequence into a fresh default root, the
resulting tree satisfies the subdivision invariant — every node that has
children holds at least 4 objects and sits strictly below `max_depth`;
equivalently, a node holding 3 or fewer objects never gains children and a
node at `max_depth` never subdivides.  (A node holding exactly 4 DOES gain
children when its fifth object arrives — see the counterexample.) -/
theorem octree_subdivision_invariant (l : List (ℕ × Vec3)) :
    subdivisionInv (buildPoints defaultOctree l) := by
  have hgen : ∀ (l' : List (ℕ × Vec3)) (t : OctreeNode), subdivisionInv t →
      subdivisionInv (buildPoints t l') := by
    intro l'
    induction l' with
    | nil => intro t ht; exact ht
    | cons ep tl ih =>
      intro t ht
      exact ih _ (insert_inv t ep.1 ep.2 ht)
  refine hgen l defaultOctree ?_
  exact ⟨by simp [OctreeList.isNil], trivial⟩

/-- The first four of `fivePts`. -/
def fourPts : List (ℕ × Vec3) :=
  [(1, ⟨1, 0, 0⟩), (2, ⟨2, 0, 0⟩), (3, ⟨3, 0, 0⟩), (4, ⟨4, 0, 0⟩)]

/-- The tree after inserting `fourPts` into a fresh default root: the root
holds exactly 4 objects and is still childless. -/
def treeFour : OctreeNode := buildPoints defaultOctree fourPts

/-- C8 counterexample: a node holding exactly 4 objects (i.e. "4 or fewer",
not "strictly more than 4") gains children on the next insertion — the
source guard is `objects.len() >= 4`, which fires while the node still holds
exactly 4 objects. -/
theorem node_holding_four_gains_children :
    treeFour.objects.length = 4 ∧ treeFour.children.isNil = true ∧
    ((treeFour.insert 5 ⟨5, 0, 0⟩).1).children.isNil = false := by
  refine ⟨?_, ?_, ?_⟩ <;>
    norm_num [treeFour, fourPts, buildPoints, defaultOctree, OctreeNode.new,
      OctreeNode.insert, containsPointB, OctreeList.isNil, subdivideChildren,
      leafInsertL, leafInsert, OctreeList.insertL, OctreeNode.children,
      OctreeNode.objects, Vec3.add_def]

/-! ### C7: no self-pairs and no symmetric duplicates -/

/-- Canonicalization is symmetric. -/
theorem canonPair_comm (a b : ℕ) : canonPair a b = canonPair b a := by
  unfold canonPair
  rcases Nat.lt_trichotomy a b with h | h | h
  · rw [if_pos h, if_neg (by omega)]
  · subst h; rfl
  · rw [if_neg (by omega), if_pos h]

/-- Detector-state invariant: recorded pairs are irreflexive, their
canonical forms are all in the checked set, and no two recorded entries are
(nontrivial) swaps of each other. -/
def DetInv (st : DetState) : Prop :=
  (∀ pr ∈ st.pairs, pr.1 ≠ pr.2) ∧
  (∀ pr ∈ st.pairs, canonPair pr.1 pr.2 ∈ st.checked) ∧
  (∀ pr qr, pr ∈ st.pairs → qr ∈ st.pairs → pr.1 = qr.2 → pr.2 = qr.1 → pr = qr)

/-- Adding a pair to the checked set preserves the invariant. -/
theorem DetInv.cons_checked (st : DetState) (x : ℕ × ℕ) (h : DetInv st) :
    DetInv ⟨x :: st.checked, st.pairs⟩ := by
  obtain ⟨i1, i2, i3⟩ := h
  exact ⟨i1, fun pr hpr => List.mem_cons_of_mem _ (i2 pr hpr), i3⟩

/-- Recording a fresh canonical pair (not yet checked) preserves the
invariant. -/
theorem DetInv.append_pair (st : DetState) (x y : ℕ) (hxy : x ≠ y)
    (hnc : canonPair x y ∉ st.checked) (h : DetInv st) :
    DetInv ⟨canonPair x y :: st.checked, st.pairs ++ [(x, y)]⟩ := by
  obtain ⟨i1, i2, i3⟩ := h
  refine ⟨?_, ?_, ?_⟩
  · intro pr hpr
    rcases List.mem_append.mp hpr with h' | h'
    · exact i1 pr h'
    · simp only [List.mem_singleton] at h'
      subst h'
      exact hxy
  · intro pr hpr
    rcases List.mem_append.mp hpr with h' | h'
    · exact List.mem_cons_of_mem _ (i2 pr h')
    · simp only [List.mem_singleton] at h'
      subst h'
      exact List.mem_cons_self _ _
  · intro pr qr hpr hqr e1 e2
    rcases List.mem_append.mp hpr with hp | hp <;> rcases List.mem_append.mp hqr with hq | hq
    · exact i3 pr qr hp hq e1 e2
    · simp only [List.mem_singleton] at hq
      subst hq
      have hpr' : pr = (y, x) := Prod.ext_iff.mpr ⟨e1, e2⟩
      subst hpr'
      exact absurd (by rw [canonPair_comm]; exact i2 _ hp) hnc
    · simp only [List.mem_singleton] at hp
      subst hp
      have hqr' : qr = (y, x) := Prod.ext_iff.mpr ⟨e2.symm, e1.symm⟩
      subst hqr'
      exact absurd (by rw [canonPair_comm]; exact i2 _ hq) hnc
    · simp only [List.mem_singleton] at hp hq
      rw [hp, hq]

/-- One candidate-processing step preserves the invariant. -/
theorem processOther_inv (pop : List SimObject) (a : SimObject) (st : DetState) (o : ℕ)
    (h : DetInv st) : DetInv (processOther pop a st o) := by
  unfold processOther
  by_cases h1 : o = a.id
  · rw [if_pos h1]; exact h
  · rw [if_neg h1]
    by_cases h2 : canonPair a.id o ∈ st.checked
    · rw [if_pos h2]; exact h
    · rw [if_neg h2]
      rcases hf : pop.find? (fun b => decide (b.id = o)) with _ | b
      · simp only [hf]
        exact DetInv.cons_checked st _ h
      · simp only [hf]
        by_cases h3 : (a.position - b.position).lengthLe
            (a.collision_radius + b.collision_radius) = true
        · rw [if_pos h3]
          exact DetInv.append_pair st a.id o (fun he => h1 he.symm) h2 h
        · rw [if_neg h3]
          exact DetInv.cons_checked st _ h

/-- Processing all candidates of one object preserves the invariant. -/
theorem processObject_inv (pop : List SimObject) (tree : OctreeNode) (st : DetState)
    (a : SimObject) (h : DetInv st) : DetInv (processObject pop tree st a) := by
  unfold processObject
  generalize tree.query_sphere a.position (a.collision_radius * 2) = l
  induction l generalizing st with
  | nil => exact h
  | cons hd tl ih => exact ih _ (processOther_inv pop a st hd h)

/-- C7: for any population and tree, the recorded pair list contains no
self-pair (A,A), and never both (A,B) and (B,A) for the same two objects. -/
theorem detection_no_self_no_swap (pop : List SimObject) (tree : OctreeNode) :
    ∀ pr ∈ collision_detection pop tree,
      pr.1 ≠ pr.2 ∧ (pr.2, pr.1) ∉ collision_detection pop tree := by
  have hfold : ∀ (l : List SimObject) (st : DetState), DetInv st →
      DetInv (l.foldl (processObject pop tree) st) := by
    intro l
    induction l with
    | nil => intro st h; exact h
    | cons hd tl ih => intro st h; exact ih _ (processObject_inv pop tree st hd h)
  have hinv : DetInv (pop.foldl (processObject pop tree) ⟨[], []⟩) :=
    hfold pop ⟨[], []⟩
      ⟨fun pr hpr => absurd hpr (List.not_mem_nil pr),
       fun pr hpr => absurd hpr (List.not_mem_nil pr),
       fun pr _ hpr _ _ _ => absurd hpr (List.not_mem_nil pr)⟩
  intro pr hpr
  obtain ⟨i1, i2, i3⟩ := hinv
  refine ⟨i1 pr hpr, fun hswap => ?_⟩
  have heq : pr = (pr.2, pr.1) := i3 pr (pr.2, pr.1) hpr hswap rfl rfl
  exact i1 pr hpr (congrArg Prod.fst heq)

/-- Concrete detection run: the two overlapping `popW` objects yield exactly
the pair (1, 2). -/
theorem detection_popW_eval :
    collision_detection popW (update_spatial_octree defaultOctree popW) = [(1, 2)] := by
  norm_num [collision_detection, processObject, processOther, OctreeNode.query_sphere,
    OctreeList.queryL, sphereIntersectsCubeB, clampQ, Vec3.lengthLe, Vec3.lengthSq,
    Vec3.sub_def, canonPair, update_spatial_octree, buildPoints, OctreeNode.clear,
    OctreeList.clearL, defaultOctree, OctreeNode.new, OctreeNode.insert, containsPointB,
    OctreeList.insertL, OctreeList.isNil, popW, List.find?]

/-- Witness for C7 at the `popW` detection run. -/
theorem detection_no_self_no_swap_witness :
    (1, 2) ∈ collision_detection popW (update_spatial_octree defaultOctree popW) ∧
    ((1, 2).1 ≠ (1, 2).2 ∧
      ((1, 2).2, (1, 2).1) ∉
        collision_detection popW (update_spatial_octree defaultOctree popW)) :=
  ⟨by rw [detection_popW_eval]; exact List.mem_singleton_self _,
   detection_no_self_no_swap popW (update_spatial_octree defaultOctree popW) (1, 2)
     (by rw [detection_popW_eval]; exact List.mem_singleton_self _)⟩

/-! ### C1: detector completeness (helpers) -/

/-- Squared distance to the clamped coordinate is at most the squared
distance to any coordinate inside the clamping interval. -/
theorem clampQ_sq_le (s lo hi x : ℚ) (h1 : lo ≤ x) (h2 : x ≤ hi) :
    (clampQ s lo hi - s) * (clampQ s lo hi - s) ≤ (x - s) * (x - s) := by
  unfold clampQ
  split
  · next hlt => nlinarith
  · split
    · next hgt => nlinarith
    · nlinarith

/-- A cube containing a point within distance `r` of the sphere center
intersects the sphere (the pruning test of `query_sphere` cannot reject it). -/
theorem contains_intersects (c : Vec3) (h : ℚ) (p sc : Vec3) (r : ℚ)
    (hcont : containsPointB c h p = true)
    (hd : (sc - p).lengthSq ≤ r * r) (hr : 0 ≤ r) :
    sphereIntersectsCubeB c h sc r = true := by
  simp only [containsPointB, Bool.and_eq_true, decide_eq_true_eq] at hcont
  obtain ⟨⟨⟨⟨⟨hx1, hx2⟩, hy1⟩, hy2⟩, hz1⟩, hz2⟩ := hcont
  simp only [sphereIntersectsCubeB, Vec3.lengthLe, Bool.and_eq_true, decide_eq_true_eq]
  refine ⟨hr, ?_⟩
  have c1 := clampQ_sq_le sc.x (c.x - h) (c.x + h) p.x hx1 hx2
  have c2 := clampQ_sq_le sc.y (c.y - h) (c.y + h) p.y hy1 hy2
  have c3 := clampQ_sq_le sc.z (c.z - h) (c.z + h) p.z hz1 hz2
  simp only [Vec3.lengthSq, Vec3.sub_def] at hd ⊢
  nlinarith [c1, c2, c3]

/-- An insertion that reports failure leaves the tree unchanged. -/
theorem insert_false_eq (t : OctreeNode) (e : ℕ) (p : Vec3)
    (hf : (t.insert e p).2 = false) : (t.insert e p).1 = t := by
  cases t with
  | mk c h md d os cs =>
    rw [insert_snd] at hf
    rw [insert_not_contains c h md d os cs e p hf]

/-- Canonical pairs agree only on the same underlying unordered pair. -/
theorem canonPair_eq_iff (x y w z : ℕ) (h : canonPair x y = canonPair w z) :
    (x = w ∧ y = z) ∨ (x = z ∧ y = w) := by
  unfold canonPair at h
  by_cases h1 : x < y
  · rw [if_pos h1] at h
    by_cases h2 : w < z
    · rw [if_pos h2] at h; simp only [Prod.mk.injEq] at h; omega
    · rw [if_neg h2] at h; simp only [Prod.mk.injEq] at h; omega
  · rw [if_neg h1] at h
    by_cases h2 : w < z
    · rw [if_pos h2] at h; simp only [Prod.mk.injEq] at h; omega
    · rw [if_neg h2] at h; simp only [Prod.mk.injEq] at h; omega

/-- With pairwise distinct ids, membership plus id equality pins the
element. -/
theorem mem_unique_by_id (pop : List SimObject) (a u : SimObject)
    (hnd : (pop.map SimObject.id).Nodup) (ha : a ∈ pop) (hu : u ∈ pop)
    (hid : u.id = a.id) : u = a := by
  induction pop with
  | nil => cases ha
  | cons hd tl ih =>
    rw [List.map_cons, List.nodup_cons] at hnd
    obtain ⟨hhd, htl⟩ := hnd
    rcases List.mem_cons.mp ha with ha' | ha' <;> rcases List.mem_cons.mp hu with hu' | hu'
    · rw [ha', hu']
    · subst ha'
      exfalso
      have hmem := List.mem_map_of_mem SimObject.id hu'
      rw [hid] at hmem
      exact hhd hmem
    · subst hu'
      exfalso
      have hmem := List.mem_map_of_mem SimObject.id ha'
      rw [← hid] at hmem
      exact hhd hmem
    · exact ih htl ha' hu'

/-- With pairwise distinct ids, `find?` by an element's id returns exactly
that element (the model of `orbital_query.get`). -/
theorem find_unique (pop : List SimObject) (b : SimObject)
    (hnd : (pop.map SimObject.id).Nodup) (hb : b ∈ pop) :
    pop.find? (fun x => decide (x.id = b.id)) = some b := by
  induction pop with
  | nil => cases hb
  | cons hd tl ih =>
    rw [List.map_cons, List.nodup_cons] at hnd
    obtain ⟨hhd, htl⟩ := hnd
    rcases List.mem_cons.mp hb with hb' | hb'
    · subst hb'
      simp [List.find?]
    · have hne : hd.id ≠ b.id := by
        intro he
        have hmem := List.mem_map_of_mem SimObject.id hb'
        rw [← he] at hmem
        exact hhd hmem
      have hfd : decide (hd.id = b.id) = false := by simp [hne]
      simp only [List.find?, hfd]
      exact ih htl hb'

/-- The narrow-phase overlap test of the detector, as a proposition. -/
def Overlap (a b : SimObject) : Prop :=
  (a.position - b.position).lengthLe (a.collision_radius + b.collision_radius) = true

/-- Squared length is invariant under swapping the subtraction order. -/
theorem lengthSq_sub_comm (a b : Vec3) : (a - b).lengthSq = (b - a).lengthSq := by
  simp only [Vec3.sub_def, Vec3.lengthSq]
  ring

/-- The overlap test is symmetric. -/
theorem Overlap.symm (a b : SimObject) (h : Overlap a b) : Overlap b a := by
  unfold Overlap at *
  simp only [Vec3.lengthLe, Bool.and_eq_true, decide_eq_true_eq] at *
  obtain ⟨h1, h2⟩ := h
  rw [lengthSq_sub_comm] at h2
  refine ⟨by linarith, ?_⟩
  calc (b.position - a.position).lengthSq
      ≤ (a.collision_radius + b.collision_radius) *
        (a.collision_radius + b.collision_radius) := h2
    _ = (b.collision_radius + a.collision_radius) *
        (b.collision_radius + a.collision_radius) := by ring

/-- A point accepted by one of the freshly subdivided children is returned
by a sphere query within range of it. -/
theorem queryL_leafInsertL_self : ∀ (cs : OctreeList) (e : ℕ) (p sc : Vec3) (r : ℚ),
    (leafInsertL cs e p).2 = true → (sc - p).lengthSq ≤ r * r → 0 ≤ r →
    e ∈ OctreeList.queryL ((leafInsertL cs e p).1) sc r
  | .nil, e, p, sc, r, hacc, _, _ => by simp [leafInsertL] at hacc
  | .cons hd tl, e, p, sc, r, hacc, hdist, hr => by
    rcases hh : leafInsert hd e p with ⟨hd', b⟩
    cases b
    · rcases ht : leafInsertL tl e p with ⟨tl', b2⟩
      simp only [leafInsertL, hh, ht] at hacc ⊢
      have hrec := queryL_leafInsertL_self tl e p sc r (by rw [ht]; exact hacc) hdist hr
      rw [ht] at hrec
      simp only [OctreeList.queryL]
      exact List.mem_append_right _ hrec
    · cases hd with
      | mk c h md d os cs2 =>
        have hc : containsPointB c h p = true := by
          by_contra hcc
          simp [leafInsert, hcc] at hh
        have hd'eq : hd' = .mk c h md d (os ++ [e]) cs2 := by
          simp only [leafInsert, hc, if_pos, if_true, Prod.mk.injEq] at hh
          exact hh.1.symm
        subst hd'eq
        simp only [leafInsertL, hh, OctreeList.queryL]
        simp only [OctreeNode.query_sphere, contains_intersects c h p sc r hc hdist hr,
          if_pos, if_true]
        exact List.mem_append_left _
          (List.mem_append_left _ (List.mem_append_right _ (List.mem_singleton_self e)))

mutual
/-- The entity just inserted is found by any sphere query whose ball covers
its position (broad-phase completeness for the new entry). -/
theorem query_insert_self : ∀ (t : OctreeNode) (e : ℕ) (p sc : Vec3) (r : ℚ),
    (t.insert e p).2 = true → (sc - p).lengthSq ≤ r * r → 0 ≤ r →
    e ∈ ((t.insert e p).1).query_sphere sc r
  | .mk c h md d os cs, e, p, sc, r, hacc, hdist, hr => by
    have hc : containsPointB c h p = true := by
      have hs := insert_snd (.mk c h md d os cs) e p
      rw [hacc] at hs
      exact hs.symm
    have hint : sphereIntersectsCubeB c h sc r = true :=
      contains_intersects c h p sc r hc hdist hr
    simp only [OctreeNode.insert, hc, if_pos, if_true]
    split
    · next hcond =>
      rcases hl : leafInsertL (subdivideChildren c h md d) e p with ⟨cs', b⟩
      cases b
      · simp only [hl]
        simp only [OctreeNode.query_sphere, hint, if_pos, if_true]
        exact List.mem_append_left _
          (List.mem_append_right _ (List.mem_singleton_self e))
      · simp only [hl]
        simp only [OctreeNode.query_sphere, hint, if_pos, if_true]
        refine List.mem_append_right _ ?_
        have hq := queryL_leafInsertL_self (subdivideChildren c h md d) e p sc r
          (by rw [hl]) hdist hr
        rw [hl] at hq
        exact hq
    · next hcond =>
      rcases hi : OctreeList.insertL cs e p with ⟨cs', b⟩
      cases b
      · simp only [hi]
        simp only [OctreeNode.query_sphere, hint, if_pos, if_true]
        exact List.mem_append_left _
          (List.mem_append_right _ (List.mem_singleton_self e))
      · simp only [hi]
        simp only [OctreeNode.query_sphere, hint, if_pos, if_true]
        refine List.mem_append_right _ ?_
        have hq := queryL_insertL_self cs e p sc r (by rw [hi]) hdist hr
        rw [hi] at hq
        exact hq

/-- Companion of `query_insert_self` for child lists. -/
theorem queryL_insertL_self : ∀ (cs : OctreeList) (e : ℕ) (p sc : Vec3) (r : ℚ),
    (OctreeList.insertL cs e p).2 = true → (sc - p).lengthSq ≤ r * r → 0 ≤ r →
    e ∈ OctreeList.queryL ((OctreeList.insertL cs e p).1) sc r
  | .nil, e, p, sc, r, hacc, _, _ => by simp [OctreeList.insertL] at hacc
  | .cons hd tl, e, p, sc, r, hacc, hdist, hr => by
    rcases hh : hd.insert e p with ⟨hd', b⟩
    cases b
    · rcases ht : OctreeList.insertL tl e p with ⟨tl', b2⟩
      simp only [OctreeList.insertL, hh, ht] at hacc ⊢
      have hrec := queryL_insertL_self tl e p sc r (by rw [ht]; exact hacc) hdist hr
      rw [ht] at hrec
      simp only [OctreeList.queryL]
      exact List.mem_append_right _ hrec
    · have hq := query_insert_self hd e p sc r (by rw [hh]) hdist hr
      rw [hh] at hq
      simp only [OctreeList.insertL, hh, OctreeList.queryL]
      exact List.mem_append_left _ hq
end

mutual
/-- Entries returned by a query are still returned after any further
insertion (insertion only appends to object lists and adds fresh empty
children). -/
theorem query_mono_insert : ∀ (t : OctreeNode) (x : ℕ) (q : Vec3) (a : ℕ) (sc : Vec3) (r : ℚ),
    a ∈ t.query_sphere sc r → a ∈ ((t.insert x q).1).query_sphere sc r
  | .mk c h md d os cs, x, q, a, sc, r, hmem => by
    by_cases hc : containsPointB c h q
    case neg =>
      rw [insert_not_contains c h md d os cs x q (by simpa using hc)]
      exact hmem
    case pos =>
      by_cases hint : sphereIntersectsCubeB c h sc r = true
      · simp only [OctreeNode.query_sphere, hint, if_pos, if_true] at hmem
        simp only [OctreeNode.insert, hc, if_pos, if_true]
        split
        · next hcond =>
          obtain ⟨hlen, hdep, hnil⟩ := hcond
          have hcs : cs = .nil := by
            cases cs
            · rfl
            · simp [OctreeList.isNil] at hnil
          subst hcs
          simp only [OctreeList.queryL, List.append_nil] at hmem
          rcases hl : leafInsertL (subdivideChildren c h md d) x q with ⟨cs', b⟩
          cases b
          · simp only [hl]
            simp only [OctreeNode.query_sphere, hint, if_pos, if_true]
            exact List.mem_append_left _ (List.mem_append_left _ hmem)
          · simp only [hl]
            simp only [OctreeNode.query_sphere, hint, if_pos, if_true]
            exact List.mem_append_left _ hmem
        · next hcond =>
          rcases hi : OctreeList.insertL cs x q with ⟨cs', b⟩
          rcases List.mem_append.mp hmem with hos | hqs
          · cases b
            · simp only [hi]
              simp only [OctreeNode.query_sphere, hint, if_pos, if_true]
              exact List.mem_append_left _ (List.mem_append_left _ hos)
            · simp only [hi]
              simp only [OctreeNode.query_sphere, hint, if_pos, if_true]
              exact List.mem_append_left _ hos
          · have hq := queryL_mono_insertL cs x q a sc r hqs
            rw [hi] at hq
            cases b <;>
              · simp only [hi]
                simp only [OctreeNode.query_sphere, hint, if_pos, if_true]
                exact List.mem_append_right _ hq
      · simp only [OctreeNode.query_sphere, hint, if_neg, if_false] at hmem
        simp at hmem

/-- Companion of `query_mono_insert` for child lists. -/
theorem queryL_mono_insertL : ∀ (cs : OctreeList) (x : ℕ) (q : Vec3) (a : ℕ) (sc : Vec3) (r : ℚ),
    a ∈ OctreeList.queryL cs sc r → a ∈ OctreeList.queryL ((OctreeList.insertL cs x q).1) sc r
  | .nil, _, _, a, sc, r, hmem => hmem
  | .cons hd tl, x, q, a, sc, r, hmem => by
    simp only [OctreeList.queryL] at hmem
    rcases hh : hd.insert x q with ⟨hd', b⟩
    rcases List.mem_append.mp hmem with h1 | h2
    · have hq := query_mono_insert hd x q a sc r h1
      rw [hh] at hq
      cases b
      · rcases ht : OctreeList.insertL tl x q with ⟨tl', b2⟩
        simp only [OctreeList.insertL, hh, ht, OctreeList.queryL]
        exact List.mem_append_left _ hq
      · simp only [OctreeList.insertL, hh, OctreeList.queryL]
        exact List.mem_append_left _ hq
    · cases b
      · rcases ht : OctreeList.insertL tl x q with ⟨tl', b2⟩
        have hq := queryL_mono_insertL tl x q a sc r h2
        rw [ht] at hq
        simp only [OctreeList.insertL, hh, ht, OctreeList.queryL]
        exact List.mem_append_right _ hq
      · simp only [OctreeList.insertL, hh, OctreeList.queryL]
        exact List.mem_append_right _ h2
end

/-- Query results survive a whole build fold. -/
theorem query_mono_buildPoints (l : List (ℕ × Vec3)) : ∀ (t : OctreeNode) (a : ℕ)
    (sc : Vec3) (r : ℚ),
    a ∈ t.query_sphere sc r → a ∈ (buildPoints t l).query_sphere sc r := by
  induction l with
  | nil => intro t a sc r hmem; exact hmem
  | cons ep tl ih =>
    intro t a sc r hmem
    exact ih _ a sc r (query_mono_insert t ep.1 ep.2 a sc r hmem)

/-- Broad-phase completeness over a build: every inserted in-bounds point
within range of the query ball is returned. -/
theorem query_buildPoints_complete (l : List (ℕ × Vec3)) : ∀ (t : OctreeNode) (e : ℕ)
    (p sc : Vec3) (r : ℚ),
    (e, p) ∈ l → containsPointB t.center t.half_size p = true →
    (sc - p).lengthSq ≤ r * r → 0 ≤ r →
    e ∈ (buildPoints t l).query_sphere sc r := by
  induction l with
  | nil => intro _ _ _ _ _ hmem; cases hmem
  | cons ep tl ih =>
    intro t e p sc r hmem hcont hdist hr
    rcases List.mem_cons.mp hmem with heq | hmem'
    · subst heq
      have hacc : (t.insert e p).2 = true := by
        rw [insert_snd]
        exact hcont
      exact query_mono_buildPoints tl _ e sc r (query_insert_self t e p sc r hacc hdist hr)
    · have hcont' : containsPointB ((t.insert ep.1 ep.2).1).center
          ((t.insert ep.1 ep.2).1).half_size p = true := by
        rw [insert_center, insert_half_size]
        exact hcont
      exact ih _ e p sc r hmem' hcont' hdist hr

/-- A pair of ids is resolved when it is recorded in some orientation. -/
def Resolved (st : DetState) (x y : ℕ) : Prop :=
  (x, y) ∈ st.pairs ∨ (y, x) ∈ st.pairs

/-- Completeness invariant: every overlapping pair of distinct population
members whose canonical form has been checked is recorded. -/
def KInv (pop : List SimObject) (st : DetState) : Prop :=
  ∀ a b, a ∈ pop → b ∈ pop → a.id ≠ b.id → Overlap a b →
    canonPair a.id b.id ∈ st.checked → Resolved st a.id b.id

/-- The checked set only grows during candidate processing. -/
theorem processOther_checked_mono (pop : List SimObject) (u : SimObject) (st : DetState)
    (o : ℕ) : ∀ x ∈ st.checked, x ∈ (processOther pop u st o).checked := by
  intro x hx
  unfold processOther
  by_cases h1 : o = u.id
  · rw [if_pos h1]; exact hx
  · rw [if_neg h1]
    by_cases h2 : canonPair u.id o ∈ st.checked
    · rw [if_pos h2]; exact hx
    · rw [if_neg h2]
      rcases hf : pop.find? (fun b => decide (b.id = o)) with _ | b'
      · simp only [hf]
        exact List.mem_cons_of_mem _ hx
      · simp only [hf]
        by_cases h3 : (u.position - b'.position).lengthLe
            (u.collision_radius + b'.collision_radius) = true
        · rw [if_pos h3]; exact List.mem_cons_of_mem _ hx
        · rw [if_neg h3]; exact List.mem_cons_of_mem _ hx

/-- The recorded pair list only grows during candidate processing. -/
theorem processOther_pairs_mono (pop : List SimObject) (u : SimObject) (st : DetState)
    (o : ℕ) : ∀ x ∈ st.pairs, x ∈ (processOther pop u st o).pairs := by
  intro x hx
  unfold processOther
  by_cases h1 : o = u.id
  · rw [if_pos h1]; exact hx
  · rw [if_neg h1]
    by_cases h2 : canonPair u.id o ∈ st.checked
    · rw [if_pos h2]; exact hx
    · rw [if_neg h2]
      rcases hf : pop.find? (fun b => decide (b.id = o)) with _ | b'
      · simp only [hf]; exact hx
      · simp only [hf]
        by_cases h3 : (u.position - b'.position).lengthLe
            (u.collision_radius + b'.collision_radius) = true
        · rw [if_pos h3]; exact List.mem_append_left _ hx
        · rw [if_neg h3]; exact hx

/-- One candidate-processing step preserves the completeness invariant. -/
theorem processOther_K (pop : List SimObject) (hnd : (pop.map SimObject.id).Nodup)
    (u : SimObject) (hu : u ∈ pop) (st : DetState) (o : ℕ)
    (hK : KInv pop st) : KInv pop (processOther pop u st o) := by
  intro a b ha hb hne hov hcanon
  unfold processOther at hcanon ⊢
  by_cases h1 : o = u.id
  · rw [if_pos h1] at hcanon ⊢
    exact hK a b ha hb hne hov hcanon
  · rw [if_neg h1] at hcanon ⊢
    by_cases h2 : canonPair u.id o ∈ st.checked
    · rw [if_pos h2] at hcanon ⊢
      exact hK a b ha hb hne hov hcanon
    · rw [if_neg h2] at hcanon ⊢
      rcases hf : pop.find? (fun x => decide (x.id = o)) with _ | b'
      · simp only [hf] at hcanon ⊢
        rcases List.mem_cons.mp hcanon with hc1 | hc2
        · exfalso
          rcases canonPair_eq_iff _ _ _ _ hc1 with ⟨_, e2⟩ | ⟨e1, _⟩
          · have hfb := find_unique pop b hnd hb
            rw [e2] at hfb
            rw [hf] at hfb
            exact Option.noConfusion hfb
          · have hfa := find_unique pop a hnd ha
            rw [e1] at hfa
            rw [hf] at hfa
            exact Option.noConfusion hfa
        · exact hK a b ha hb hne hov hc2
      · simp only [hf] at hcanon ⊢
        by_cases h3 : (u.position - b'.position).lengthLe
            (u.collision_radius + b'.collision_radius) = true
        · rw [if_pos h3] at hcanon ⊢
          rcases List.mem_cons.mp hcanon with hc1 | hc2
          · rcases canonPair_eq_iff _ _ _ _ hc1 with ⟨e1, e2⟩ | ⟨e1, e2⟩
            · refine Or.inl ?_
              show (a.id, b.id) ∈ st.pairs ++ [(u.id, o)]
              rw [e1, e2]
              exact List.mem_append_right _ (List.mem_singleton_self _)
            · refine Or.inr ?_
              show (b.id, a.id) ∈ st.pairs ++ [(u.id, o)]
              rw [e1, e2]
              exact List.mem_append_right _ (List.mem_singleton_self _)
          · rcases hK a b ha hb hne hov hc2 with hx | hx
            · exact Or.inl (List.mem_append_left _ hx)
            · exact Or.inr (List.mem_append_left _ hx)
        · rw [if_neg h3] at hcanon ⊢
          rcases List.mem_cons.mp hcanon with hc1 | hc2
          · exfalso
            rcases canonPair_eq_iff _ _ _ _ hc1 with ⟨e1, e2⟩ | ⟨e1, e2⟩
            · have hua : u = a := mem_unique_by_id pop a u hnd ha hu e1.symm
              have hfb := find_unique pop b hnd hb
              rw [e2] at hfb
              rw [hf] at hfb
              have hb'b : b' = b := Option.some.injEq _ _ ▸ hfb
              subst hua; subst hb'b
              exact h3 hov
            · have hub : u = b := mem_unique_by_id pop b u hnd hb hu e2.symm
              have hfa := find_unique pop a hnd ha
              rw [e1] at hfa
              rw [hf] at hfa
              have hb'a : b' = a := Option.some.injEq _ _ ▸ hfa
              subst hub; subst hb'a
              exact h3 (Overlap.symm _ _ hov)
          · exact hK a b ha hb hne hov hc2

/-- The invariant is preserved along the inner candidate fold. -/
theorem foldl_processOther_K (pop : List SimObject) (hnd : (pop.map SimObject.id).Nodup)
    (u : SimObject) (hu : u ∈ pop) (l : List ℕ) :
    ∀ (st : DetState), KInv pop st → KInv pop (l.foldl (processOther pop u) st) := by
  induction l with
  | nil => intro st h; exact h
  | cons hd tl ih => intro st h; exact ih _ (processOther_K pop hnd u hu st hd h)

/-- The invariant is preserved along the outer object fold. -/
theorem foldl_processObject_K (pop : List SimObject) (tree : OctreeNode)
    (hnd : (pop.map SimObject.id).Nodup) (l : List SimObject)
    (hl : ∀ x ∈ l, x ∈ pop) :
    ∀ (st : DetState), KInv pop st → KInv pop (l.foldl (processObject pop tree) st) := by
  induction l with
  | nil => intro st h; exact h
  | cons hd tl ih =>
    intro st h
    refine ih (fun x hx => hl x (List.mem_cons_of_mem _ hx)) _ ?_
    exact foldl_processOther_K pop hnd hd (hl hd (List.mem_cons_self _ _)) _ st h

/-- Once a candidate is reached, its canonical pair is in the checked set. -/
theorem processOther_checked_gets (pop : List SimObject) (u : SimObject) (st : DetState)
    (o : ℕ) (hne : o ≠ u.id) :
    canonPair u.id o ∈ (processOther pop u st o).checked := by
  unfold processOther
  rw [if_neg hne]
  by_cases h2 : canonPair u.id o ∈ st.checked
  · rw [if_pos h2]; exact h2
  · rw [if_neg h2]
    rcases hf : pop.find? (fun b => decide (b.id = o)) with _ | b'
    · simp only [hf]
      exact List.mem_cons_self _ _
    · simp only [hf]
      by_cases h3 : (u.position - b'.position).lengthLe
          (u.collision_radius + b'.collision_radius) = true
      · rw [if_pos h3]; exact List.mem_cons_self _ _
      · rw [if_neg h3]; exact List.mem_cons_self _ _

/-- The checked set grows monotonically along the candidate fold. -/
theorem foldl_processOther_checked_mono (pop : List SimObject) (u : SimObject)
    (l : List ℕ) : ∀ (st : DetState), ∀ x ∈ st.checked,
    x ∈ (l.foldl (processOther pop u) st).checked := by
  induction l with
  | nil => intro st x hx; exact hx
  | cons hd tl ih =>
    intro st x hx
    exact ih _ x (processOther_checked_mono pop u st hd x hx)

/-- Candidates in the processed list leave their canonical pair checked. -/
theorem foldl_processOther_checked_gets (pop : List SimObject) (u : SimObject)
    (l : List ℕ) : ∀ (st : DetState) (o : ℕ), o ∈ l → o ≠ u.id →
    canonPair u.id o ∈ (l.foldl (processOther pop u) st).checked := by
  induction l with
  | nil => intro _ _ ho; cases ho
  | cons hd tl ih =>
    intro st o ho hne
    rcases List.mem_cons.mp ho with ho' | ho'
    · subst ho'
      exact foldl_processOther_checked_mono pop u tl _ _
        (processOther_checked_gets pop u st o hne)
    · exact ih _ o ho' hne

/-- The checked set grows monotonically along the outer object fold. -/
theorem foldl_processObject_checked_mono (pop : List SimObject) (tree : OctreeNode)
    (l : List SimObject) : ∀ (st : DetState), ∀ x ∈ st.checked,
    x ∈ (l.foldl (processObject pop tree) st).checked := by
  induction l with
  | nil => intro st x hx; exact hx
  | cons hd tl ih =>
    intro st x hx
    exact ih _ x (foldl_processOther_checked_mono pop hd _ st x hx)

/-- Processing an object leaves the canonical pair with each of its
broad-phase candidates checked, and this persists to the end of the pass. -/
theorem foldl_processObject_checked_gets (pop : List SimObject) (tree : OctreeNode)
    (l : List SimObject) : ∀ (st : DetState) (u : SimObject) (o : ℕ), u ∈ l →
    o ∈ tree.query_sphere u.position (u.collision_radius * 2) → o ≠ u.id →
    canonPair u.id o ∈ (l.foldl (processObject pop tree) st).checked := by
  induction l with
  | nil => intro _ _ _ hu; cases hu
  | cons hd tl ih =>
    intro st u o hu ho hne
    rcases List.mem_cons.mp hu with hu' | hu'
    · subst hu'
      refine foldl_processObject_checked_mono pop tree tl _ _ ?_
      exact foldl_processOther_checked_gets pop u _ st o ho hne
    · exact ih _ u o hu' ho hne

/-- One-sided completeness: when the querying object has the larger
collision radius, the overlapping pair ends up recorded. -/
theorem detection_complete_side (pop : List SimObject) (t : OctreeNode)
    (hnd : (pop.map SimObject.id).Nodup)
    (hin : ∀ o ∈ pop, containsPointB ⟨0, 0, 0⟩ 50000 o.position = true)
    (hrad : ∀ o ∈ pop, 0 ≤ o.collision_radius)
    (hc : t.center = ⟨0, 0, 0⟩) (hh : t.half_size = 50000)
    (a b : SimObject) (ha : a ∈ pop) (hb : b ∈ pop) (hne : a.id ≠ b.id)
    (hov : Overlap a b) (hle : b.collision_radius ≤ a.collision_radius) :
    Resolved (pop.foldl (processObject pop (update_spatial_octree t pop)) ⟨[], []⟩)
      a.id b.id := by
  have hrada := hrad a ha
  have hradb := hrad b hb
  have hovd := hov
  unfold Overlap at hovd
  simp only [Vec3.lengthLe, Bool.and_eq_true, decide_eq_true_eq] at hovd
  obtain ⟨hsum, hdist⟩ := hovd
  have hq : b.id ∈ (update_spatial_octree t pop).query_sphere a.position
      (a.collision_radius * 2) := by
    unfold update_spatial_octree
    apply query_buildPoints_complete
    · exact List.mem_map_of_mem _ hb
    · rw [clear_center, clear_half_size, hc, hh]
      exact hin b hb
    · nlinarith [hdist, hle, hrada, hradb]
    · linarith
  have hchk : canonPair a.id b.id ∈
      (pop.foldl (processObject pop (update_spatial_octree t pop)) ⟨[], []⟩).checked :=
    foldl_processObject_checked_gets pop _ pop _ a b.id ha hq (fun he => hne he.symm)
  have hK : KInv pop (pop.foldl (processObject pop (update_spatial_octree t pop)) ⟨[], []⟩) :=
    foldl_processObject_K pop _ hnd pop (fun _ hx => hx) _
      (fun _ _ _ _ _ _ hmem => absurd hmem (List.not_mem_nil _))
  exact hK a b ha hb hne hov hchk

/-- C1 amended: for every population whose objects all lie inside the root
cube (origin-centered, half size 50,000 km), with nonnegative collision
radii and pairwise distinct entity ids, the collision pass over the rebuilt
octree records every truly overlapping pair — in one of the two
orientations — including pairs of zero-radius objects.  (Unrestricted
completeness fails: an overlapping pair outside the root cube is silently
missed, see the counterexample.) -/
theorem detection_complete (pop : List SimObject) (t : OctreeNode)
    (hnd : (pop.map SimObject.id).Nodup)
    (hin : ∀ o ∈ pop, containsPointB ⟨0, 0, 0⟩ 50000 o.position = true)
    (hrad : ∀ o ∈ pop, 0 ≤ o.collision_radius)
    (hc : t.center = ⟨0, 0, 0⟩) (hh : t.half_size = 50000)
    (a b : SimObject) (ha : a ∈ pop) (hb : b ∈ pop) (hne : a.id ≠ b.id)
    (hov : (a.position - b.position).lengthSq ≤
      (a.collision_radius + b.collision_radius) *
        (a.collision_radius + b.collision_radius)) :
    (a.id, b.id) ∈ collision_detection pop (update_spatial_octree t pop) ∨
    (b.id, a.id) ∈ collision_detection pop (update_spatial_octree t pop) := by
  have hova : Overlap a b := by
    unfold Overlap
    simp only [Vec3.lengthLe, Bool.and_eq_true, decide_eq_true_eq]
    exact ⟨by have := hrad a ha; have := hrad b hb; linarith, hov⟩
  rcases le_total b.collision_radius a.collision_radius with hle | hle
  · exact detection_complete_side pop t hnd hin hrad hc hh a b ha hb hne hova hle
  · have hres := detection_complete_side pop t hnd hin hrad hc hh b a hb ha
      (fun he => hne he.symm) (Overlap.symm _ _ hova) hle
    rcases hres with hx | hx
    · exact Or.inr hx
    · exact Or.inl hx

/-- Witness for the amended C1 theorem: the two in-bounds overlapping `popW`
objects are detected. -/
theorem detection_complete_witness :
    (popW.map SimObject.id).Nodup ∧
    ((SimObject.id ⟨1, ⟨7000, 0, 0⟩, ⟨1, 0, 0⟩, 1000, 1⟩,
        SimObject.id ⟨2, ⟨7001, 0, 0⟩, ⟨1, 0, 0⟩, 1000, 1⟩) ∈
          collision_detection popW (update_spatial_octree defaultOctree popW) ∨
     (SimObject.id ⟨2, ⟨7001, 0, 0⟩, ⟨1, 0, 0⟩, 1000, 1⟩,
        SimObject.id ⟨1, ⟨7000, 0, 0⟩, ⟨1, 0, 0⟩, 1000, 1⟩) ∈
          collision_detection popW (update_spatial_octree defaultOctree popW)) :=
  ⟨by decide,
   detection_complete popW defaultOctree (by decide)
     (by
       intro o ho
       rcases List.mem_cons.mp ho with h | h
       · subst h; norm_num [containsPointB]
       · rcases List.mem_cons.mp h with h' | h'
         · subst h'; norm_num [containsPointB]
         · cases h')
     (by
       intro o ho
       rcases List.mem_cons.mp ho with h | h
       · subst h; norm_num
       · rcases List.mem_cons.mp h with h' | h'
         · subst h'; norm_num
         · cases h')
     rfl rfl
     ⟨1, ⟨7000, 0, 0⟩, ⟨1, 0, 0⟩, 1000, 1⟩ ⟨2, ⟨7001, 0, 0⟩, ⟨1, 0, 0⟩, 1000, 1⟩
     (List.mem_cons_self _ _) (List.mem_cons_of_mem _ (List.mem_cons_self _ _))
     (by norm_num)
     (by norm_num [Vec3.sub_def, Vec3.lengthSq])⟩

/-- Two overlapping objects beyond the root cube (x = 60,000 and 60,003 km,
radii 1 and 10 km, separation 3 km < 11 km). -/
def popOut : List SimObject :=
  [⟨1, ⟨60000, 0, 0⟩, ⟨0, 0, 0⟩, 1000, 1⟩, ⟨2, ⟨60003, 0, 0⟩, ⟨0, 0, 0⟩, 1000, 10⟩]

/-- C1 counterexample: the `popOut` pair truly overlaps (radii not both
zero), yet after the per-step rebuild the detection pass records no pair at
all — both objects lie outside the root cube, are never indexed, and each
object's own query ball misses the other's node, so the claimed unrestricted
completeness is false. -/
theorem detection_misses_overlapping_pair :
    Overlap ⟨1, ⟨60000, 0, 0⟩, ⟨0, 0, 0⟩, 1000, 1⟩
      ⟨2, ⟨60003, 0, 0⟩, ⟨0, 0, 0⟩, 1000, 10⟩ ∧
    collision_detection popOut (update_spatial_octree defaultOctree popOut) = [] := by
  constructor
  · norm_num [Overlap, Vec3.lengthLe, Vec3.sub_def, Vec3.lengthSq]
  · norm_num [collision_detection, processObject, processOther, OctreeNode.query_sphere,
      OctreeList.queryL, sphereIntersectsCubeB, clampQ, Vec3.lengthLe, Vec3.lengthSq,
      Vec3.sub_def, canonPair, update_spatial_octree, buildPoints, OctreeNode.clear,
      OctreeList.clearL, defaultOctree, OctreeNode.new, OctreeNode.insert, containsPointB,
      OctreeList.insertL, OctreeList.isNil, popOut, List.find?]

end Kessler
